import Mathlib

/-!
Shallow embedding of the `you-shall-pass` ACL engine (src/lib/acl.ts) and of
its example restriction accumulators (src/lib/restrictions/fields-by-id.ts,
FieldsRestriction), together with proofs settling the specification claims.

Modelling conventions:
* A JS object's own enumerable properties are a `Record` (association list,
  written by in-place update-or-append, exactly like JS property assignment).
* A prototype chain (`Object.create(params)` scoping) is a `Ctx`: a list of
  records, head = innermost scope; lookup reads through to the parent.
* `async` user predicates either resolve to a boolean plus the sequence of
  own-property writes they performed on their scope, or reject (`Res.fault`).
* Recursion in `_check` / `_canReach` / `_explain` is unbounded in JS; it is
  embedded with an explicit fuel parameter.  `none` means the fuel ran out:
  the JS computation diverges on an input iff every fuel yields `none`.
* Restriction fills are observed as an event log: one event
  `(edge.from, edge.to', key)` per fill-function invocation.
-/

set_option synthInstance.maxSize 512

abbrev Key := String

abbrev Val := Nat

/-- Own enumerable properties of a JS object, in insertion order. -/
abbrev Record := List (Key × Val)

/-- A prototype chain of scopes; the head is the innermost scope. -/
abbrev Ctx := List Record

/-- Eager variant of `Option.orElse` (first defined value wins). -/
def oor (a b : Option Val) : Option Val :=
  match a with
  | some v => some v
  | none => b

/-- Property lookup on own properties (JS objects have unique keys, so the
first entry with the key is the value). -/
def rget : Record → Key → Option Val
  | [], _ => none
  | p :: r, k => if p.1 = k then some p.2 else rget r k

/-- JS property assignment `obj[k] = v`: update in place when the key exists,
otherwise append. -/
def rset (r : Record) (k : Key) (v : Val) : Record :=
  if (rget r k).isSome then
    r.map (fun p => if p.1 = k then (k, v) else p)
  else
    r ++ [(k, v)]

/-- Model of `Object.assign(target, src)`: replay the own enumerable
properties of `src` onto `target` in order. -/
def assign (target src : Record) : Record :=
  src.foldl (fun t p => rset t p.1 p.2) target

/-- Value of the last entry of a write sequence carrying the key (JS
last-write-wins when the same key is assigned repeatedly). -/
def wlast (r : Record) (k : Key) : Option Val :=
  r.foldl (fun acc p => if p.1 = k then some p.2 else acc) none

/-- Result of an async computation: fulfilled, or rejected. -/
inductive Res (α : Type) where
  | fault : Res α
  | ok : α → Res α
deriving DecidableEq, Repr

/-- A user-supplied edge predicate: given the parent scope chain it either
rejects, or resolves to its boolean verdict together with the sequence of own
property writes it performed on its scoped params object. -/
abbrev CheckFn := Ctx → Res (Bool × Record)

/-- Edge of the ACL graph (class Edge in src/lib/acl.ts).  `restrictKeys`
are the keys of the edge's `_restrictFns` hash; the fill functions themselves
are caller code and are observed through the fill-event log. -/
structure Edge where
  frm : String
  to' : String
  explain : String
  check : CheckFn
  restrictKeys : List String

/-- The ACL graph: all edges in declaration order (the source stores them in
a Map keyed by `from`; `edgesFrom` reproduces `this._edges.get(from)`). -/
abbrev Graph := List Edge

/-- Ordered successor-edge lookup, `this._edges.get(from) || []`. -/
def edgesFrom (g : Graph) (frm : String) : List Edge :=
  g.filter (fun e => e.frm == frm)

/-- One fill event: the edge's from node, its to node, and the restriction
key whose fill function was invoked. -/
abbrev FillEvent := String × String × String

abbrev FillLog := List FillEvent

/-- Events produced by `Edge.fillRestrictions`: for every key of the
caller-supplied restriction hash (in order) that the edge has a fill
function for, one invocation. -/
def fillEvents (e : Edge) (restr : List Key) : FillLog :=
  (restr.filter (fun k => e.restrictKeys.contains k)).map (fun k => (e.frm, e.to', k))

/-- Loop of `_canReach`: try each outgoing edge in order and return true at
the first success (`f` is the recursive oracle call at the remaining fuel;
`none` propagates fuel exhaustion, i.e. divergence of that call). -/
def canReachList (f : String → Option Bool) : List Edge → Option Bool
  | [] => some false
  | e :: rest =>
    match f e.to' with
    | none => none
    | some true => some true
    | some false => canReachList f rest

/-- The reachability oracle `_canReach`, with explicit fuel.  The JS original
recurses with no visited set; `none` models fuel exhaustion (divergence). -/
def canReachF (g : Graph) : Nat → String → String → Option Bool
  | 0, _, _ => none
  | fuel + 1, frm, t =>
    if frm = t then some true
    else canReachList (fun n => canReachF g fuel n t) (edgesFrom g frm)

/-- The edge filter of `_check` step 2:
`(this._edges.get(from) || []).filter(edge => this._canReach(edge.to', to))`.
Divergence of any oracle call (fuel exhaustion) makes the whole filter
diverge. -/
def filterReach (g : Graph) (fuel : Nat) (t : String) : List Edge → Option (List Edge)
  | [] => some []
  | e :: rest =>
    match canReachF g fuel e.to' t with
    | none => none
    | some true => (filterReach g fuel t rest).map (e :: ·)
    | some false => filterReach g fuel t rest

/-- Result of `_check`: diverged (`none`), or rejected (`Res.fault`, an
uncaught predicate rejection), or resolved with the merged params (`none`
inside means the null "no path" signal) and the fill log. -/
abbrev CheckOut := Option (Res (Option Record × FillLog))

/-- Body of `_checkChildren` for one edge, parameterised by the recursive
call `self` (which is `_check` at the remaining fuel):
create the scoped params, run the predicate, recurse on success, then fire
the restriction fills and merge `Object.assign({}, scopedParams,
childrenParams)`. -/
def checkChildrenAux (self : String → Ctx → FillLog → CheckOut)
    (restr : List Key) (e : Edge) (ctx : Ctx) (log : FillLog) : CheckOut :=
  match e.check ctx with
  | Res.fault => some Res.fault
  | Res.ok (passed, w) =>
    if passed = true then
      match self e.to' (assign [] w :: ctx) log with
      | none => none
      | some Res.fault => some Res.fault
      | some (Res.ok (none, log')) => some (Res.ok (none, log'))
      | some (Res.ok (some childRec, log')) =>
        some (Res.ok (some (assign (assign [] (assign [] w)) childRec),
          log' ++ fillEvents e restr))
    else some (Res.ok (none, log))

/-- Sequential rendering of `Promise.all(edges.map(edge =>
this._checkChildren(...)))`: results come back in declaration order; a
rejection of any branch rejects the whole list. -/
def checkListAux (self : String → Ctx → FillLog → CheckOut) (restr : List Key)
    (ctx : Ctx) : List Edge → FillLog → Option (Res (List (Option Record) × FillLog))
  | [], log => some (Res.ok ([], log))
  | e :: rest, log =>
    match checkChildrenAux self restr e ctx log with
    | none => none
    | some Res.fault => some Res.fault
    | some (Res.ok (r, log')) =>
      match checkListAux self restr ctx rest log' with
      | none => none
      | some Res.fault => some Res.fault
      | some (Res.ok (rs, log'')) => some (Res.ok (r :: rs, log''))

/-- The traversal `_check(from, to, params, restrictions)` with explicit
fuel.  Base case returns the params unchanged (their own scope is the head
of the chain); otherwise prune by reachability, explore every surviving
edge, and merge the positive results in declaration order over a fresh
object, or fail with the null signal. -/
def checkF (g : Graph) (restr : List Key) : Nat → String → String → Ctx → FillLog → CheckOut
  | 0, _, _, _, _ => none
  | fuel + 1, frm, t, ctx, log =>
    if frm = t then some (Res.ok (some (ctx.headD []), log))
    else
      match filterReach g fuel t (edgesFrom g frm) with
      | none => none
      | some es =>
        match checkListAux (fun n c l => checkF g restr fuel n t c l) restr ctx es log with
        | none => none
        | some Res.fault => some Res.fault
        | some (Res.ok (results, log')) =>
          let pos := results.filterMap id
          some (Res.ok (if pos.isEmpty then none else some (pos.foldl assign []), log'))

/-- One record of the decision trail produced by `_explain`. -/
structure ExplainResult where
  explain : String
  to' : String
  checkPassed : Bool
  params : Ctx
deriving DecidableEq, Repr

/-- Loop body of `_explain`, parameterised by the recursive call: for every
edge whose target can structurally reach `t`, evaluate the predicate in a
fresh scope, push one record, and when the predicate passed and the edge
does not land on the target, splice the child trail right after it. -/
def explainListAux (self : String → Ctx → Option (Res (List ExplainResult)))
    (g : Graph) (fuel : Nat) (t : String) (ctx : Ctx) :
    List Edge → Option (Res (List ExplainResult))
  | [] => some (Res.ok [])
  | e :: rest =>
    match canReachF g fuel e.to' t with
    | none => none
    | some false => explainListAux self g fuel t ctx rest
    | some true =>
      match e.check ctx with
      | Res.fault => some Res.fault
      | Res.ok (passed, w) =>
        let sc := assign [] w
        let entry : ExplainResult := ⟨e.explain, e.to', passed, sc :: ctx⟩
        if e.to' ≠ t ∧ passed = true then
          match self e.to' (sc :: ctx) with
          | none => none
          | some Res.fault => some Res.fault
          | some (Res.ok children) =>
            match explainListAux self g fuel t ctx rest with
            | none => none
            | some Res.fault => some Res.fault
            | some (Res.ok tail) => some (Res.ok (entry :: (children ++ tail)))
        else
          match explainListAux self g fuel t ctx rest with
          | none => none
          | some Res.fault => some Res.fault
          | some (Res.ok tail) => some (Res.ok (entry :: tail))

/-- The diagnostics traversal `_explain(from, to, params)` with fuel. -/
def explainF (g : Graph) : Nat → String → String → Ctx → Option (Res (List ExplainResult))
  | 0, _, _, _ => none
  | fuel + 1, frm, t, ctx =>
    explainListAux (fun n c => explainF g fuel n t c) g fuel t ctx (edgesFrom g frm)

/-! ## Record algebra -/

theorem oor_none_right (a : Option Val) : oor a none = a := by
  cases a <;> rfl

theorem oor_assoc (a b c : Option Val) : oor (oor a b) c = oor a (oor b c) := by
  cases a <;> rfl

theorem oor_isSome (a b : Option Val) : (oor a b).isSome = (a.isSome || b.isSome) := by
  cases a <;> cases b <;> rfl

theorem rget_map_update (r : Record) (k : Key) (v : Val) (k' : Key) :
    rget (r.map (fun p => if p.1 = k then (k, v) else p)) k'
      = if k' = k then (rget r k).map (fun _ => v) else rget r k' := by
  induction r with
  | nil => by_cases h : k' = k <;> simp [rget, h]
  | cons p r ih =>
    simp only [List.map_cons]
    by_cases hk : k' = k
    · subst hk
      by_cases hp : p.1 = k'
      · simp [rget, hp]
      · simp [rget, hp, ih]
    · by_cases hp : p.1 = k
      · have h1 : ¬(k = k') := fun h => hk h.symm
        have h2 : ¬(p.1 = k') := by rw [hp]; exact h1
        simp [rget, hp, h1, h2, hk, ih]
      · by_cases hpk : p.1 = k'
        · simp [rget, hp, hpk, hk]
        · simp [rget, hp, hpk, hk, ih]

theorem rget_append_single (r : Record) (k : Key) (v : Val) (k' : Key) :
    rget (r ++ [(k, v)]) k' = oor (rget r k') (if k' = k then some v else none) := by
  induction r with
  | nil =>
    by_cases hk : k' = k
    · simp [rget, hk, oor]
    · have : ¬(k = k') := fun h => hk h.symm
      simp [rget, this, hk, oor]
  | cons p r ih =>
    by_cases hpk : p.1 = k'
    · simp [rget, hpk, oor]
    · simp [rget, hpk, ih]

theorem rget_rset (r : Record) (k : Key) (v : Val) (k' : Key) :
    rget (rset r k v) k' = if k' = k then some v else rget r k' := by
  unfold rset
  by_cases h : (rget r k).isSome
  · rw [if_pos h, rget_map_update]
    by_cases hk : k' = k
    · subst hk
      obtain ⟨u, hu⟩ := Option.isSome_iff_exists.mp h
      simp [hu]
    · simp [hk]
  · rw [if_neg h, rget_append_single]
    by_cases hk : k' = k
    · subst hk
      have : rget r k' = none := Option.not_isSome_iff_eq_none.mp h
      simp [this, oor]
    · simp [hk, oor_none_right]

theorem foldl_wstep (k : Key) (r : Record) (acc : Option Val) :
    r.foldl (fun a p => if p.1 = k then some p.2 else a) acc = oor (wlast r k) acc := by
  induction r generalizing acc with
  | nil => rfl
  | cons p r ih =>
    show r.foldl _ (if p.1 = k then some p.2 else acc) = _
    rw [ih]
    have hw : wlast (p :: r) k
        = oor (wlast r k) (if p.1 = k then some p.2 else none) := by
      show r.foldl _ (if p.1 = k then some p.2 else none) = _
      rw [ih]
    rw [hw, oor_assoc]
    by_cases hp : p.1 = k <;> simp [hp, oor]

theorem wlast_cons (p : Key × Val) (r : Record) (k : Key) :
    wlast (p :: r) k = oor (wlast r k) (if p.1 = k then some p.2 else none) := by
  show r.foldl _ (if p.1 = k then some p.2 else none) = _
  rw [foldl_wstep]

theorem rget_assign (a b : Record) (k : Key) :
    rget (assign a b) k = oor (wlast b k) (rget a k) := by
  induction b generalizing a with
  | nil => rfl
  | cons p b ih =>
    show rget (assign (rset a p.1 p.2) b) k = _
    rw [ih, rget_rset, wlast_cons, oor_assoc]
    by_cases hp : p.1 = k
    · subst hp
      simp [oor]
    · have : ¬(k = p.1) := fun h => hp h.symm
      simp [hp, this, oor]

theorem rget_assign_nil (w : Record) (k : Key) : rget (assign [] w) k = wlast w k := by
  rw [rget_assign]
  exact oor_none_right _

theorem rget_isSome_iff (r : Record) (k : Key) :
    (rget r k).isSome ↔ k ∈ r.map Prod.fst := by
  induction r with
  | nil => simp [rget]
  | cons p r ih =>
    by_cases hp : p.1 = k
    · simp [rget, hp]
    · have hp' : ¬(k = p.1) := fun h => hp h.symm
      simp [rget, hp, hp', ih]

theorem wlast_isSome_iff (r : Record) (k : Key) :
    (wlast r k).isSome ↔ k ∈ r.map Prod.fst := by
  induction r with
  | nil => simp [wlast]
  | cons p r ih =>
    rw [wlast_cons]
    by_cases hp : p.1 = k
    · simp only [if_pos hp, oor_isSome, Option.isSome_some, Bool.or_true, List.map_cons,
        List.mem_cons, true_iff]
      exact Or.inl hp.symm
    · have hp' : ¬(k = p.1) := fun h => hp h.symm
      simp [oor_isSome, hp, hp', ih]

theorem wlast_isSome_eq (r : Record) (k : Key) : (wlast r k).isSome = (rget r k).isSome := by
  have h1 := wlast_isSome_iff r k
  have h2 := rget_isSome_iff r k
  by_cases h : k ∈ r.map Prod.fst
  · simp [h1.mpr h, h2.mpr h]
  · have e1 : wlast r k = none := Option.not_isSome_iff_eq_none.mp (fun hs => h (h1.mp hs))
    have e2 : rget r k = none := Option.not_isSome_iff_eq_none.mp (fun hs => h (h2.mp hs))
    simp [e1, e2]

/-- Key uniqueness of a record (JS objects cannot have duplicate keys). -/
def RNodup (r : Record) : Prop := (r.map Prod.fst).Nodup

theorem RNodup_nil : RNodup [] := List.nodup_nil

theorem map_fst_rset_present (r : Record) (k : Key) (v : Val) (h : (rget r k).isSome) :
    (rset r k v).map Prod.fst = r.map Prod.fst := by
  unfold rset
  rw [if_pos h, List.map_map]
  apply List.map_congr_left
  intro p _
  by_cases hp : p.1 = k
  · simp [Function.comp, hp]
  · simp [Function.comp, hp]

theorem RNodup_rset (r : Record) (k : Key) (v : Val) (h : RNodup r) : RNodup (rset r k v) := by
  by_cases hs : (rget r k).isSome
  · unfold RNodup
    rw [map_fst_rset_present r k v hs]
    exact h
  · unfold RNodup rset
    rw [if_neg hs, List.map_append]
    have hk : k ∉ r.map Prod.fst := fun hm => hs ((rget_isSome_iff r k).mpr hm)
    simp only [List.map_cons, List.map_nil]
    rw [List.nodup_append]
    refine ⟨h, List.nodup_singleton k, ?_⟩
    intro x hx hx1
    rcases List.mem_singleton.mp hx1 with rfl
    exact hk hx

theorem RNodup_assign (a b : Record) (h : RNodup a) : RNodup (assign a b) := by
  induction b generalizing a with
  | nil => exact h
  | cons p b ih =>
    show RNodup (assign (rset a p.1 p.2) b)
    exact ih _ (RNodup_rset a p.1 p.2 h)

theorem wlast_eq_rget_of_nodup (r : Record) (k : Key) (h : RNodup r) :
    wlast r k = rget r k := by
  induction r with
  | nil => rfl
  | cons p r ih =>
    rw [wlast_cons]
    have hnd : RNodup r := (List.nodup_cons.mp h).2
    have hni : p.1 ∉ r.map Prod.fst := (List.nodup_cons.mp h).1
    by_cases hp : p.1 = k
    · have hw : wlast r k = none := by
        apply Option.not_isSome_iff_eq_none.mp
        intro hs
        exact hni (hp ▸ (wlast_isSome_iff r k).mp hs)
      simp [rget, hp, hw, oor]
    · simp [rget, hp, ih hnd, oor_none_right]

theorem wlast_assign_nil (w : Record) (k : Key) : wlast (assign [] w) k = wlast w k := by
  rw [wlast_eq_rget_of_nodup _ _ (RNodup_assign [] w RNodup_nil), rget_assign_nil]

/-- Value for `k` after merging the records of `l` in order, later records
overwriting earlier ones (the declaration-order overwrite rule). -/
def lastDef (l : List Record) (k : Key) : Option Val :=
  l.foldl (fun acc r => oor (wlast r k) acc) none

theorem foldl_lastDef_init (k : Key) (l : List Record) (acc : Option Val) :
    l.foldl (fun a r => oor (wlast r k) a) acc = oor (lastDef l k) acc := by
  induction l generalizing acc with
  | nil => rfl
  | cons r l ih =>
    show l.foldl _ (oor (wlast r k) acc) = _
    rw [ih]
    have hl : lastDef (r :: l) k = oor (lastDef l k) (oor (wlast r k) none) := by
      show l.foldl _ (oor (wlast r k) none) = _
      rw [ih]
    rw [hl, oor_assoc]
    cases wlast r k <;> simp [oor]

theorem lastDef_cons (r : Record) (l : List Record) (k : Key) :
    lastDef (r :: l) k = oor (lastDef l k) (wlast r k) := by
  show l.foldl _ (oor (wlast r k) none) = _
  rw [foldl_lastDef_init, oor_none_right]

theorem rget_foldl_assign (l : List Record) (a : Record) (k : Key) :
    rget (l.foldl assign a) k = oor (lastDef l k) (rget a k) := by
  induction l generalizing a with
  | nil => rfl
  | cons r l ih =>
    show rget (l.foldl assign (assign a r)) k = _
    rw [ih, rget_assign, lastDef_cons, oor_assoc]

theorem lastDef_isSome (l : List Record) (k : Key) :
    (lastDef l k).isSome ↔ ∃ r ∈ l, (wlast r k).isSome := by
  induction l with
  | nil => simp [lastDef]
  | cons r l ih =>
    rw [lastDef_cons]
    simp only [oor_isSome, Bool.or_eq_true, List.mem_cons]
    constructor
    · rintro (h | h)
      · obtain ⟨x, hx, hs⟩ := ih.mp h
        exact ⟨x, Or.inr hx, hs⟩
      · exact ⟨r, Or.inl rfl, h⟩
    · rintro ⟨x, hx | hx, hs⟩
      · subst hx; exact Or.inr hs
      · exact Or.inl (ih.mpr ⟨x, hx, hs⟩)

/-! ## Structural reachability and predicate-satisfying paths -/

/-- Structural reachability: `frm` reaches `t` along graph edges, ignoring
predicates (the relation `_canReach` computes). -/
inductive Reach (g : Graph) (t : String) : String → Prop where
  | refl : Reach g t t
  | step {frm : String} {e : Edge} (he : e ∈ edgesFrom g frm)
      (hr : Reach g t e.to') : Reach g t frm

/-- Concrete structural path: the list of edges walked from a node to `t`. -/
inductive IsPath (g : Graph) : String → List Edge → String → Prop where
  | nil {t : String} : IsPath g t [] t
  | cons {frm t : String} {e : Edge} {p : List Edge} (he : e ∈ edgesFrom g frm)
      (hp : IsPath g e.to' p t) : IsPath g frm (e :: p) t

/-- A predicate-satisfying path: from `frm`, in context `ctx`, one can reach
`t` along edges whose predicates all resolve to true in their scoped
contexts (each edge pushes the scope holding its predicate's writes). -/
inductive OkPath (g : Graph) (t : String) : String → Ctx → Prop where
  | refl (ctx : Ctx) : OkPath g t t ctx
  | step {frm : String} {ctx : Ctx} {e : Edge} {w : Record}
      (he : e ∈ edgesFrom g frm) (hc : e.check ctx = Res.ok (true, w))
      (hp : OkPath g t e.to' (assign [] w :: ctx)) : OkPath g t frm ctx

theorem mem_edgesFrom {g : Graph} {frm : String} {e : Edge} (h : e ∈ edgesFrom g frm) :
    e ∈ g ∧ e.frm = frm := by
  have := List.mem_filter.mp h
  exact ⟨this.1, by simpa using this.2⟩

theorem edgesFrom_mem {g : Graph} {e : Edge} (h : e ∈ g) : e ∈ edgesFrom g e.frm := by
  exact List.mem_filter.mpr ⟨h, by simp⟩

theorem IsPath_reach {g : Graph} {frm t : String} {p : List Edge}
    (h : IsPath g frm p t) : Reach g t frm := by
  induction h with
  | nil => exact Reach.refl
  | cons he _ ih => exact Reach.step he ih

theorem IsPath_mem_reach {g : Graph} {frm t : String} {p : List Edge}
    (h : IsPath g frm p t) : ∀ e ∈ p, Reach g t e.to' := by
  induction h with
  | nil => intro e he; cases he
  | cons hhead htail ih =>
    intro e he
    rcases List.mem_cons.mp he with rfl | hm
    · exact IsPath_reach htail
    · exact ih e hm

theorem OkPath_reach {g : Graph} {t frm : String} {ctx : Ctx}
    (h : OkPath g t frm ctx) : Reach g t frm := by
  induction h with
  | refl => exact Reach.refl
  | step he _ _ ih => exact Reach.step he ih

/-- Characterisation of the loop of `_canReach` when every recursive call
came back (no divergence among them). -/
theorem canReachList_char (f : String → Option Bool) (es : List Edge)
    (h : ∀ e ∈ es, (f e.to').isSome) :
    ∃ b, canReachList f es = some b ∧ (b = true ↔ ∃ e ∈ es, f e.to' = some true) := by
  induction es with
  | nil => exact ⟨false, rfl, by simp⟩
  | cons e rest ih =>
    obtain ⟨b, hb⟩ := Option.isSome_iff_exists.mp (h e (List.mem_cons_self e rest))
    cases b with
    | true =>
      refine ⟨true, ?_, ?_⟩
      · simp [canReachList, hb]
      · simp only [true_iff]
        exact ⟨e, List.mem_cons_self e rest, hb⟩
    | false =>
      obtain ⟨b', hb', hiff⟩ := ih (fun x hx => h x (List.mem_cons_of_mem e hx))
      refine ⟨b', ?_, ?_⟩
      · simp [canReachList, hb, hb']
      · rw [hiff]
        constructor
        · rintro ⟨x, hx, hfx⟩
          exact ⟨x, List.mem_cons_of_mem e hx, hfx⟩
        · rintro ⟨x, hx, hfx⟩
          rcases List.mem_cons.mp hx with rfl | hm
          · rw [hb] at hfx; cases hfx
          · exact ⟨x, hm, hfx⟩

/-- On a ranked (hence acyclic) graph, `_canReach` terminates given fuel
above the rank of the start node, and decides structural reachability. -/
theorem canReach_correct (g : Graph) (rank : String → Nat)
    (hrank : ∀ e ∈ g, rank e.to' < rank e.frm) :
    ∀ fuel frm t, rank frm < fuel →
      ∃ b, canReachF g fuel frm t = some b ∧ (b = true ↔ Reach g t frm) := by
  intro fuel
  induction fuel with
  | zero => intro frm t h; cases h
  | succ fuel ih =>
    intro frm t hf
    by_cases hft : frm = t
    · subst hft
      exact ⟨true, by simp [canReachF], by simp [Reach.refl]⟩
    · have hrec : ∀ e ∈ edgesFrom g frm, ((fun n => canReachF g fuel n t) e.to').isSome := by
        intro e he
        obtain ⟨heg, hef⟩ := mem_edgesFrom he
        have : rank e.to' < fuel := by
          have h1 := hrank e heg
          rw [hef] at h1
          omega
        obtain ⟨b, hb, _⟩ := ih e.to' t this
        simp [hb]
      obtain ⟨b, hb, hiff⟩ :=
        canReachList_char (fun n => canReachF g fuel n t) (edgesFrom g frm) hrec
      refine ⟨b, ?_, ?_⟩
      · simp [canReachF, hft, hb]
      · rw [hiff]
        constructor
        · rintro ⟨e, he, hfx⟩
          obtain ⟨heg, hef⟩ := mem_edgesFrom he
          have : rank e.to' < fuel := by
            have h1 := hrank e heg
            rw [hef] at h1
            omega
          obtain ⟨b', hb', hiff'⟩ := ih e.to' t this
          rw [hfx] at hb'
          cases hb'
          exact Reach.step he (hiff'.mp rfl)
        · intro hr
          cases hr with
          | refl => exact absurd rfl hft
          | step he hr2 =>
            rename_i e
            refine ⟨e, he, ?_⟩
            obtain ⟨heg, hef⟩ := mem_edgesFrom he
            have : rank e.to' < fuel := by
              have h1 := hrank e heg
              rw [hef] at h1
              omega
            obtain ⟨b', hb', hiff'⟩ := ih e.to' t this
            rw [hb', hiff'.mpr hr2]

/-! ## Unfolding equations for the traversal -/

theorem checkF_zero (g : Graph) (restr : List Key) (frm t : String) (ctx : Ctx)
    (log : FillLog) : checkF g restr 0 frm t ctx log = none := rfl

theorem checkF_base (g : Graph) (restr : List Key) (fuel : Nat) (t : String) (ctx : Ctx)
    (log : FillLog) :
    checkF g restr (fuel + 1) t t ctx log = some (Res.ok (some (ctx.headD []), log)) := by
  simp [checkF]

theorem checkF_step (g : Graph) (restr : List Key) (fuel : Nat) {frm t : String}
    (hft : frm ≠ t) (ctx : Ctx) (log : FillLog) {es : List Edge}
    (hes : filterReach g fuel t (edgesFrom g frm) = some es)
    {out : Res (List (Option Record) × FillLog)}
    (hlist : checkListAux (fun n c l => checkF g restr fuel n t c l) restr ctx es log
      = some out) :
    checkF g restr (fuel + 1) frm t ctx log
      = match out with
        | Res.fault => some Res.fault
        | Res.ok (results, log') =>
          let pos := results.filterMap id
          some (Res.ok (if pos.isEmpty then none else some (pos.foldl assign []), log')) := by
  rcases out with _ | ⟨results, log'⟩ <;> simp [checkF, hft, hes, hlist]

theorem checkF_step_div (g : Graph) (restr : List Key) (fuel : Nat) {frm t : String}
    (hft : frm ≠ t) (ctx : Ctx) (log : FillLog)
    (hes : filterReach g fuel t (edgesFrom g frm) = none) :
    checkF g restr (fuel + 1) frm t ctx log = none := by
  simp [checkF, hft, hes]

theorem checkChildrenAux_fault (self : String → Ctx → FillLog → CheckOut)
    (restr : List Key) {e : Edge} {ctx : Ctx} (log : FillLog)
    (he : e.check ctx = Res.fault) :
    checkChildrenAux self restr e ctx log = some Res.fault := by
  simp [checkChildrenAux, he]

theorem checkChildrenAux_false (self : String → Ctx → FillLog → CheckOut)
    (restr : List Key) {e : Edge} {ctx : Ctx} (log : FillLog) {w : Record}
    (he : e.check ctx = Res.ok (false, w)) :
    checkChildrenAux self restr e ctx log = some (Res.ok (none, log)) := by
  simp [checkChildrenAux, he]

theorem checkChildrenAux_true (self : String → Ctx → FillLog → CheckOut)
    (restr : List Key) {e : Edge} {ctx : Ctx} (log : FillLog) {w : Record}
    (he : e.check ctx = Res.ok (true, w)) :
    checkChildrenAux self restr e ctx log
      = match self e.to' (assign [] w :: ctx) log with
        | none => none
        | some Res.fault => some Res.fault
        | some (Res.ok (none, log')) => some (Res.ok (none, log'))
        | some (Res.ok (some childRec, log')) =>
          some (Res.ok (some (assign (assign [] (assign [] w)) childRec),
            log' ++ fillEvents e restr)) := by
  simp [checkChildrenAux, he]

theorem checkListAux_nil (self : String → Ctx → FillLog → CheckOut) (restr : List Key)
    (ctx : Ctx) (log : FillLog) :
    checkListAux self restr ctx [] log = some (Res.ok ([], log)) := rfl

theorem checkListAux_cons (self : String → Ctx → FillLog → CheckOut) (restr : List Key)
    (ctx : Ctx) {e : Edge} (rest : List Edge) (log : FillLog)
    {r : Option Record} {log' : FillLog}
    (hc : checkChildrenAux self restr e ctx log = some (Res.ok (r, log')))
    {out : Res (List (Option Record) × FillLog)}
    (hrest : checkListAux self restr ctx rest log' = some out) :
    checkListAux self restr ctx (e :: rest) log
      = match out with
        | Res.fault => some Res.fault
        | Res.ok (rs, log'') => some (Res.ok (r :: rs, log'')) := by
  rcases out with _ | ⟨rs, log''⟩ <;> simp [checkListAux, hc, hrest]

/-! ## Pruning filter characterisation -/

theorem filterReach_char (g : Graph) (fuel : Nat) (t : String) (es : List Edge)
    (h : ∀ e ∈ es, (canReachF g fuel e.to' t).isSome) :
    ∃ l, filterReach g fuel t es = some l
      ∧ ∀ x, x ∈ l ↔ x ∈ es ∧ canReachF g fuel x.to' t = some true := by
  induction es with
  | nil => exact ⟨[], rfl, by simp⟩
  | cons e rest ih =>
    obtain ⟨l, hl, hiff⟩ := ih (fun x hx => h x (List.mem_cons_of_mem e hx))
    obtain ⟨b, hb⟩ := Option.isSome_iff_exists.mp (h e (List.mem_cons_self e rest))
    cases b with
    | true =>
      refine ⟨e :: l, ?_, ?_⟩
      · simp [filterReach, hb, hl]
      · intro x
        simp only [List.mem_cons]
        constructor
        · rintro (rfl | hx)
          · exact ⟨Or.inl rfl, hb⟩
          · obtain ⟨hm, hc⟩ := (hiff x).mp hx
            exact ⟨Or.inr hm, hc⟩
        · rintro ⟨rfl | hm, hc⟩
          · exact Or.inl rfl
          · exact Or.inr ((hiff x).mpr ⟨hm, hc⟩)
    | false =>
      refine ⟨l, ?_, ?_⟩
      · simp [filterReach, hb, hl]
      · intro x
        rw [hiff x]
        simp only [List.mem_cons]
        constructor
        · rintro ⟨hm, hc⟩
          exact ⟨Or.inr hm, hc⟩
        · rintro ⟨rfl | hm, hc⟩
          · rw [hb] at hc; cases hc
          · exact ⟨hm, hc⟩

theorem filterReach_sub {g : Graph} {fuel : Nat} {t : String} {es l : List Edge}
    (h : filterReach g fuel t es = some l) : ∀ x ∈ l, x ∈ es := by
  induction es generalizing l with
  | nil =>
    simp only [filterReach] at h
    cases h
    intro x hx
    cases hx
  | cons e rest ih =>
    intro x hx
    simp only [filterReach] at h
    rcases hcr : canReachF g fuel e.to' t with _ | b
    · rw [hcr] at h; cases h
    · rw [hcr] at h
      cases b with
      | true =>
        rcases hrest : filterReach g fuel t rest with _ | l'
        · rw [hrest] at h; cases h
        · rw [hrest] at h
          simp only [Option.map_some] at h
          cases h
          rcases List.mem_cons.mp hx with rfl | hm
          · exact List.mem_cons_self x rest
          · exact List.mem_cons_of_mem e (ih hrest x hm)
      | false => exact List.mem_cons_of_mem e (ih h x hx)

theorem filterMap_id_nonempty (l : List (Option Record)) :
    (l.filterMap id).isEmpty = false ↔ ∃ r ∈ l, r.isSome := by
  induction l with
  | nil => simp
  | cons r l ih =>
    cases r with
    | none => simpa using ih
    | some v => simp

/-! ## Totality and path-correctness of the traversal -/

theorem checkList_char (self : String → Ctx → FillLog → CheckOut) (restr : List Key)
    (ctx : Ctx) (P : Edge → Record → Prop) :
    ∀ es : List Edge,
      (∀ e ∈ es, e.check ctx ≠ Res.fault) →
      (∀ e ∈ es, ∀ w log₀, e.check ctx = Res.ok (true, w) →
        ∃ r lg, self e.to' (assign [] w :: ctx) log₀ = some (Res.ok (r, lg))
          ∧ (r.isSome ↔ P e w)) →
      ∀ log, ∃ results lg,
        checkListAux self restr ctx es log = some (Res.ok (results, lg))
          ∧ ((∃ r ∈ results, r.isSome)
              ↔ ∃ e ∈ es, ∃ w, e.check ctx = Res.ok (true, w) ∧ P e w) := by
  intro es
  induction es with
  | nil =>
    intro _ _ log
    exact ⟨[], log, rfl, by simp⟩
  | cons e rest ih =>
    intro htot hrec log
    have htotr := fun x hx => htot x (List.mem_cons_of_mem e hx)
    have hrecr := fun x hx => hrec x (List.mem_cons_of_mem e hx)
    rcases hce : e.check ctx with _ | ⟨passed, w⟩
    · exact absurd hce (htot e (List.mem_cons_self e rest))
    · cases passed with
      | false =>
        obtain ⟨results, lg, hl, hiff⟩ := ih htotr hrecr log
        refine ⟨none :: results, lg, ?_, ?_⟩
        · rw [checkListAux_cons self restr ctx rest log
            (checkChildrenAux_false self restr log hce) hl]
        · constructor
          · rintro ⟨r, hr, hs⟩
            rcases List.mem_cons.mp hr with rfl | hm
            · cases hs
            · obtain ⟨x, hx, hrest⟩ := hiff.mp ⟨r, hm, hs⟩
              exact ⟨x, List.mem_cons_of_mem e hx, hrest⟩
          · rintro ⟨x, hx, w', hw', hp⟩
            rcases List.mem_cons.mp hx with rfl | hm
            · rw [hce] at hw'
              cases hw'
            · obtain ⟨r, hr, hs⟩ := hiff.mpr ⟨x, hm, w', hw', hp⟩
              exact ⟨r, List.mem_cons_of_mem none hr, hs⟩
      | true =>
        obtain ⟨r, lg, hself, hriff⟩ := hrec e (List.mem_cons_self e rest) w log hce
        rcases r with _ | c
        · have hcc : checkChildrenAux self restr e ctx log = some (Res.ok (none, lg)) := by
            rw [checkChildrenAux_true self restr log hce, hself]
          obtain ⟨results, lg2, hl, hiff⟩ := ih htotr hrecr lg
          refine ⟨none :: results, lg2, ?_, ?_⟩
          · rw [checkListAux_cons self restr ctx rest log hcc hl]
          · constructor
            · rintro ⟨r, hr, hs⟩
              rcases List.mem_cons.mp hr with rfl | hm
              · cases hs
              · obtain ⟨x, hx, hrest⟩ := hiff.mp ⟨r, hm, hs⟩
                exact ⟨x, List.mem_cons_of_mem e hx, hrest⟩
            · rintro ⟨x, hx, w', hw', hp⟩
              rcases List.mem_cons.mp hx with rfl | hm
              · rw [hce] at hw'
                cases hw'
                exact absurd (hriff.mpr hp) (by simp)
              · obtain ⟨r, hr, hs⟩ := hiff.mpr ⟨x, hm, w', hw', hp⟩
                exact ⟨r, List.mem_cons_of_mem none hr, hs⟩
        · have hcc : checkChildrenAux self restr e ctx log
              = some (Res.ok (some (assign (assign [] (assign [] w)) c),
                  lg ++ fillEvents e restr)) := by
            rw [checkChildrenAux_true self restr log hce, hself]
          obtain ⟨results, lg2, hl, hiff⟩ := ih htotr hrecr (lg ++ fillEvents e restr)
          refine ⟨some (assign (assign [] (assign [] w)) c) :: results, lg2, ?_, ?_⟩
          · rw [checkListAux_cons self restr ctx rest log hcc hl]
          · constructor
            · intro _
              exact ⟨e, List.mem_cons_self e rest, w, hce, hriff.mp (by simp)⟩
            · intro _
              exact ⟨some (assign (assign [] (assign [] w)) c),
                List.mem_cons_self _ _, by simp⟩

theorem check_total_correct (g : Graph) (restr : List Key) (rank : String → Nat)
    (hrank : ∀ e ∈ g, rank e.to' < rank e.frm)
    (htotal : ∀ e ∈ g, ∀ c, e.check c ≠ Res.fault) :
    ∀ fuel frm t ctx log, rank frm < fuel →
      ∃ r log', checkF g restr fuel frm t ctx log = some (Res.ok (r, log'))
        ∧ (r.isSome ↔ OkPath g t frm ctx) := by
  intro fuel
  induction fuel with
  | zero => intro frm t ctx log h; cases h
  | succ fuel ih =>
    intro frm t ctx log hf
    by_cases hft : frm = t
    · subst hft
      refine ⟨some (ctx.headD []), log, checkF_base g restr fuel frm ctx log, ?_⟩
      simp only [Option.isSome_some, true_iff]
      exact OkPath.refl ctx
    · have hrankfuel : ∀ e ∈ edgesFrom g frm, rank e.to' < fuel := by
        intro e he
        obtain ⟨heg, hef⟩ := mem_edgesFrom he
        have := hrank e heg
        rw [hef] at this
        omega
      have hterm : ∀ e ∈ edgesFrom g frm, (canReachF g fuel e.to' t).isSome := by
        intro e he
        obtain ⟨b, hb, _⟩ := canReach_correct g rank hrank fuel e.to' t (hrankfuel e he)
        simp [hb]
      obtain ⟨es, hes, hmemiff⟩ := filterReach_char g fuel t (edgesFrom g frm) hterm
      have hsubf : ∀ e ∈ es, e ∈ edgesFrom g frm := fun e he => ((hmemiff e).mp he).1
      have htot' : ∀ e ∈ es, e.check ctx ≠ Res.fault :=
        fun e he => htotal e (mem_edgesFrom (hsubf e he)).1 ctx
      have hrec : ∀ e ∈ es, ∀ w log₀, e.check ctx = Res.ok (true, w) →
          ∃ r lg, checkF g restr fuel e.to' t (assign [] w :: ctx) log₀
              = some (Res.ok (r, lg))
            ∧ (r.isSome ↔ OkPath g t e.to' (assign [] w :: ctx)) := by
        intro e he w log₀ _
        exact ih e.to' t (assign [] w :: ctx) log₀ (hrankfuel e (hsubf e he))
      obtain ⟨results, lg, hl, hiff⟩ :=
        checkList_char (fun n c l => checkF g restr fuel n t c l) restr ctx
          (fun e w => OkPath g t e.to' (assign [] w :: ctx)) es htot' hrec log
      have hstep := checkF_step g restr fuel hft ctx log hes hl
      refine ⟨if (results.filterMap id).isEmpty then none
          else some ((results.filterMap id).foldl assign []), lg, hstep, ?_⟩
      by_cases hpos : (results.filterMap id).isEmpty = true
      · rw [if_pos hpos]
        simp only [Option.isSome_none, Bool.false_eq_true, false_iff]
        intro hok
        cases hok with
        | refl => exact absurd rfl hft
        | step he hc hp =>
          rename_i e w
          have hees : e ∈ es := by
            refine (hmemiff e).mpr ⟨he, ?_⟩
            obtain ⟨b, hb, hbi⟩ := canReach_correct g rank hrank fuel e.to' t (hrankfuel e he)
            rw [hb, hbi.mpr (OkPath_reach hp)]
          have hne : (results.filterMap id).isEmpty = false :=
            (filterMap_id_nonempty results).mpr (hiff.mpr ⟨e, hees, w, hc, hp⟩)
          rw [hpos] at hne
          cases hne
      · rw [if_neg hpos]
        simp only [Option.isSome_some, true_iff]
        have hne : (results.filterMap id).isEmpty = false := by
          cases hh : (results.filterMap id).isEmpty
          · rfl
          · exact absurd hh hpos
        obtain ⟨e, hees, w, hcw, hp⟩ := hiff.mp ((filterMap_id_nonempty results).mp hne)
        exact OkPath.step (hsubf e hees) hcw hp

/-! ## Termination on ranked graphs (no totality assumption needed) -/

theorem checkChildrenAux_isSome (self : String → Ctx → FillLog → CheckOut)
    (restr : List Key) (e : Edge) (ctx : Ctx) (log : FillLog)
    (hself : ∀ c l, (self e.to' c l).isSome) :
    (checkChildrenAux self restr e ctx log).isSome := by
  rcases hce : e.check ctx with _ | ⟨passed, w⟩
  · simp [checkChildrenAux_fault self restr log hce]
  · cases passed with
    | false => simp [checkChildrenAux_false self restr log hce]
    | true =>
      rw [checkChildrenAux_true self restr log hce]
      rcases hs : self e.to' (assign [] w :: ctx) log with _ | r
      · have := hself (assign [] w :: ctx) log
        rw [hs] at this
        cases this
      · rcases r with _ | ⟨ro, lg⟩
        · simp
        · rcases ro with _ | c <;> simp

theorem checkListAux_isSome (self : String → Ctx → FillLog → CheckOut)
    (restr : List Key) (ctx : Ctx) :
    ∀ es log, (∀ e ∈ es, ∀ l, (checkChildrenAux self restr e ctx l).isSome) →
      (checkListAux self restr ctx es log).isSome := by
  intro es
  induction es with
  | nil => intro log _; simp [checkListAux_nil]
  | cons e rest ih =>
    intro log h
    rcases hc : checkChildrenAux self restr e ctx log with _ | r
    · have := h e (List.mem_cons_self e rest) log
      rw [hc] at this
      cases this
    · rcases r with _ | ⟨ro, lg⟩
      · simp [checkListAux, hc]
      · have hrest := ih lg (fun x hx l => h x (List.mem_cons_of_mem e hx) l)
        rcases hr : checkListAux self restr ctx rest lg with _ | out
        · rw [hr] at hrest
          cases hrest
        · rcases out with _ | ⟨rs, lg2⟩ <;> simp [checkListAux, hc, hr]

theorem check_term (g : Graph) (restr : List Key) (rank : String → Nat)
    (hrank : ∀ e ∈ g, rank e.to' < rank e.frm) :
    ∀ fuel frm t ctx log, rank frm < fuel → (checkF g restr fuel frm t ctx log).isSome := by
  intro fuel
  induction fuel with
  | zero => intro frm t ctx log h; cases h
  | succ fuel ih =>
    intro frm t ctx log hf
    by_cases hft : frm = t
    · subst hft
      simp [checkF_base]
    · have hrankfuel : ∀ e ∈ edgesFrom g frm, rank e.to' < fuel := by
        intro e he
        obtain ⟨heg, hef⟩ := mem_edgesFrom he
        have := hrank e heg
        rw [hef] at this
        omega
      have hterm : ∀ e ∈ edgesFrom g frm, (canReachF g fuel e.to' t).isSome := by
        intro e he
        obtain ⟨b, hb, _⟩ := canReach_correct g rank hrank fuel e.to' t (hrankfuel e he)
        simp [hb]
      obtain ⟨es, hes, hmemiff⟩ := filterReach_char g fuel t (edgesFrom g frm) hterm
      have hlist : (checkListAux (fun n c l => checkF g restr fuel n t c l) restr ctx es log).isSome := by
        apply checkListAux_isSome
        intro e he l
        apply checkChildrenAux_isSome
        intro c l'
        exact ih e.to' t c l' (hrankfuel e ((hmemiff e).mp he).1)
      rcases hl : checkListAux (fun n c l => checkF g restr fuel n t c l) restr ctx es log
        with _ | out
      · rw [hl] at hlist
        cases hlist
      · rcases out with _ | ⟨results, lg⟩
        · simp [checkF, hft, hes, hl]
        · rw [checkF_step g restr fuel hft ctx log hes hl]
          simp

/-! ## Inversion lemmas -/

theorem checkChildrenAux_ok_inv {self : String → Ctx → FillLog → CheckOut}
    {restr : List Key} {e : Edge} {ctx : Ctx} {log : FillLog} {ro : Option Record}
    {lg : FillLog}
    (h : checkChildrenAux self restr e ctx log = some (Res.ok (ro, lg))) :
    (∃ w, e.check ctx = Res.ok (false, w) ∧ ro = none ∧ lg = log)
    ∨ (∃ w l₁, e.check ctx = Res.ok (true, w)
        ∧ self e.to' (assign [] w :: ctx) log = some (Res.ok (none, l₁))
        ∧ ro = none ∧ lg = l₁)
    ∨ (∃ w c l₁, e.check ctx = Res.ok (true, w)
        ∧ self e.to' (assign [] w :: ctx) log = some (Res.ok (some c, l₁))
        ∧ ro = some (assign (assign [] (assign [] w)) c)
        ∧ lg = l₁ ++ fillEvents e restr) := by
  rcases hce : e.check ctx with _ | ⟨passed, w⟩
  · rw [checkChildrenAux_fault self restr log hce] at h
    cases h
  · cases passed with
    | false =>
      rw [checkChildrenAux_false self restr log hce] at h
      simp only [Option.some.injEq, Res.ok.injEq, Prod.mk.injEq] at h
      exact Or.inl ⟨w, rfl, h.1.symm, h.2.symm⟩
    | true =>
      rw [checkChildrenAux_true self restr log hce] at h
      rcases hs : self e.to' (assign [] w :: ctx) log with _ | r
      · rw [hs] at h
        cases h
      · rcases r with _ | ⟨ro', l₁⟩
        · rw [hs] at h
          cases h
        · rcases ro' with _ | c
          · rw [hs] at h
            simp only [Option.some.injEq, Res.ok.injEq, Prod.mk.injEq] at h
            exact Or.inr (Or.inl ⟨w, l₁, rfl, hs, h.1.symm, h.2.symm⟩)
          · rw [hs] at h
            simp only [Option.some.injEq, Res.ok.injEq, Prod.mk.injEq] at h
            exact Or.inr (Or.inr ⟨w, c, l₁, rfl, hs, h.1.symm, h.2.symm⟩)

theorem checkListAux_cons_inv {self : String → Ctx → FillLog → CheckOut}
    {restr : List Key} {ctx : Ctx} {e : Edge} {rest : List Edge} {log : FillLog}
    {results : List (Option Record)} {lg : FillLog}
    (h : checkListAux self restr ctx (e :: rest) log = some (Res.ok (results, lg))) :
    ∃ r l₁ rs, checkChildrenAux self restr e ctx log = some (Res.ok (r, l₁))
      ∧ checkListAux self restr ctx rest l₁ = some (Res.ok (rs, lg))
      ∧ results = r :: rs := by
  rcases hc : checkChildrenAux self restr e ctx log with _ | r
  · simp [checkListAux, hc] at h
  · rcases r with _ | ⟨r, l₁⟩
    · simp [checkListAux, hc] at h
    · rcases hr : checkListAux self restr ctx rest l₁ with _ | out
      · simp [checkListAux, hc, hr] at h
      · rcases out with _ | ⟨rs, lg2⟩
        · simp [checkListAux, hc, hr] at h
        · simp only [checkListAux, hc, hr, Option.some.injEq, Res.ok.injEq,
            Prod.mk.injEq] at h
          refine ⟨r, l₁, rs, rfl, ?_, h.1.symm⟩
          rw [← h.2]
          exact hr

theorem checkF_succ_inv {g : Graph} {restr : List Key} {fuel : Nat} {frm t : String}
    {ctx : Ctx} {log : FillLog} {ro : Option Record} {lg : FillLog} (hft : frm ≠ t)
    (h : checkF g restr (fuel + 1) frm t ctx log = some (Res.ok (ro, lg))) :
    ∃ es results, filterReach g fuel t (edgesFrom g frm) = some es
      ∧ checkListAux (fun n c l => checkF g restr fuel n t c l) restr ctx es log
          = some (Res.ok (results, lg))
      ∧ ro = (if (results.filterMap id).isEmpty then none
          else some ((results.filterMap id).foldl assign [])) := by
  rcases hes : filterReach g fuel t (edgesFrom g frm) with _ | es
  · rw [checkF_step_div g restr fuel hft ctx log hes] at h
    cases h
  · rcases hl : checkListAux (fun n c l => checkF g restr fuel n t c l) restr ctx es log
      with _ | out
    · simp only [checkF, hft, hes, hl] at h
      simp at h
    · rcases out with _ | ⟨results, lg2⟩
      · rw [checkF_step g restr fuel hft ctx log hes hl] at h
        cases h
      · rw [checkF_step g restr fuel hft ctx log hes hl] at h
        simp only [Option.some.injEq, Res.ok.injEq, Prod.mk.injEq] at h
        refine ⟨es, results, rfl, ?_, h.1.symm⟩
        rw [← h.2]
        exact hl

/-! ## Fill-log behaviour on failing branches -/

theorem filterMap_id_all_none (l : List (Option Record))
    (h : (l.filterMap id).isEmpty = true) : ∀ r ∈ l, r = none := by
  intro r hr
  rcases r with _ | c
  · rfl
  · have : (l.filterMap id).isEmpty = false :=
      (filterMap_id_nonempty l).mpr ⟨some c, hr, by simp⟩
    rw [h] at this
    cases this

theorem checkChildrenAux_fail_log {self : String → Ctx → FillLog → CheckOut}
    {restr : List Key} {e : Edge} {ctx : Ctx} {log lg : FillLog}
    (hself : ∀ c l l', self e.to' c l = some (Res.ok (none, l')) → l' = l)
    (h : checkChildrenAux self restr e ctx log = some (Res.ok (none, lg))) : lg = log := by
  rcases checkChildrenAux_ok_inv h with ⟨w, _, _, hl⟩ | ⟨w, l₁, _, hs, _, hl⟩ | ⟨w, c, l₁, _, _, hro, _⟩
  · exact hl
  · rw [hl]
    exact hself _ _ _ hs
  · cases hro

theorem checkListAux_fail_log {self : String → Ctx → FillLog → CheckOut}
    {restr : List Key} {ctx : Ctx} :
    ∀ {es : List Edge} {log lg : FillLog} {results : List (Option Record)},
      (∀ e ∈ es, ∀ c l l', self e.to' c l = some (Res.ok (none, l')) → l' = l) →
      checkListAux self restr ctx es log = some (Res.ok (results, lg)) →
      (∀ r ∈ results, r = none) → lg = log := by
  intro es
  induction es with
  | nil =>
    intro log lg results _ h _
    rw [checkListAux_nil] at h
    simp only [Option.some.injEq, Res.ok.injEq, Prod.mk.injEq] at h
    exact h.2.symm
  | cons e rest ih =>
    intro log lg results hself h hnone
    obtain ⟨r, l₁, rs, hc, hrest, hres⟩ := checkListAux_cons_inv h
    have hr : r = none := hnone r (hres ▸ List.mem_cons_self r rs)
    subst hr
    have h1 : l₁ = log :=
      checkChildrenAux_fail_log (hself e (List.mem_cons_self e rest)) hc
    have h2 : lg = l₁ := by
      apply ih (fun x hx => hself x (List.mem_cons_of_mem e hx)) hrest
      intro x hx
      exact hnone x (hres ▸ List.mem_cons_of_mem none hx)
    rw [h2, h1]

/-- When the traversal fails (null result), the fill log is untouched: no
restriction fill ran on any explored-but-failing branch. -/
theorem checkF_fail_log (g : Graph) (restr : List Key) :
    ∀ fuel frm t ctx log lg,
      checkF g restr fuel frm t ctx log = some (Res.ok (none, lg)) → lg = log := by
  intro fuel
  induction fuel with
  | zero =>
    intro frm t ctx log lg h
    cases h
  | succ fuel ih =>
    intro frm t ctx log lg h
    by_cases hft : frm = t
    · subst hft
      rw [checkF_base] at h
      simp at h
    · obtain ⟨es, results, _, hl, hro⟩ := checkF_succ_inv hft h
      have hempty : (results.filterMap id).isEmpty = true := by
        by_cases hh : (results.filterMap id).isEmpty = true
        · exact hh
        · rw [if_neg hh] at hro
          cases hro
      exact checkListAux_fail_log
        (fun e _ c l l' hs => ih e.to' t c l l' hs) hl
        (filterMap_id_all_none results hempty)

/-! ## Origin of the keys of a successful merged result -/

/-- The key was written (as an own scope property) by some predicate of the
graph, during an invocation where the predicate passed. -/
def WrittenT (g : Graph) (k : Key) : Prop :=
  ∃ e ∈ g, ∃ c w, e.check c = Res.ok (true, w) ∧ (wlast w k).isSome

theorem checkListAux_keys {g : Graph} {self : String → Ctx → FillLog → CheckOut}
    {restr : List Key} {ctx : Ctx} :
    ∀ {es : List Edge} {log lg : FillLog} {results : List (Option Record)},
      (∀ e ∈ es, e ∈ g) →
      (∀ e ∈ es, ∀ w l c l', e.check ctx = Res.ok (true, w) →
        self e.to' (assign [] w :: ctx) l = some (Res.ok (some c, l')) →
        ∀ k, (rget c k).isSome → WrittenT g k) →
      checkListAux self restr ctx es log = some (Res.ok (results, lg)) →
      ∀ r ∈ results, ∀ c, r = some c → ∀ k, (rget c k).isSome → WrittenT g k := by
  intro es
  induction es with
  | nil =>
    intro log lg results _ _ h r hr
    rw [checkListAux_nil] at h
    simp only [Option.some.injEq, Res.ok.injEq, Prod.mk.injEq] at h
    rw [← h.1] at hr
    cases hr
  | cons e rest ih =>
    intro log lg results hsub hself h r hr c hrc k hk
    obtain ⟨r₀, l₁, rs, hc, hrest, hres⟩ := checkListAux_cons_inv h
    subst hres
    rcases List.mem_cons.mp hr with rfl | hm
    · subst hrc
      rcases checkChildrenAux_ok_inv hc with ⟨w, _, hro, _⟩ | ⟨w, l₂, _, _, hro, _⟩
        | ⟨w, c', l₂, hce, hs, hro, _⟩
      · cases hro
      · cases hro
      · injection hro with hro
        subst hro
        rw [rget_assign] at hk
        rw [oor_isSome] at hk
        rcases Bool.or_eq_true_iff.mp hk with hk1 | hk2
        · rw [wlast_isSome_eq, ← wlast_isSome_eq] at hk1
          exact hself e (List.mem_cons_self e rest) w log c' l₂ hce hs k
            (by rw [← wlast_isSome_eq]; exact hk1)
        · rw [rget_assign_nil, wlast_assign_nil] at hk2
          exact ⟨e, hsub e (List.mem_cons_self e rest), ctx, w, hce, hk2⟩
    · exact ih (fun x hx => hsub x (List.mem_cons_of_mem e hx))
        (fun x hx => hself x (List.mem_cons_of_mem e hx)) hrest r hm c hrc k hk

/-- Every key of a successful `_check` result was written by a passing
predicate, provided the same holds of the own scope of the params at a base
case (at the top level with `frm ≠ t` the base case is never taken). -/
theorem check_keys_written (g : Graph) (restr : List Key) :
    ∀ fuel frm t ctx log ro lg,
      (frm = t → ∀ k, (rget (ctx.headD []) k).isSome → WrittenT g k) →
      checkF g restr fuel frm t ctx log = some (Res.ok (some ro, lg)) →
      ∀ k, (rget ro k).isSome → WrittenT g k := by
  intro fuel
  induction fuel with
  | zero =>
    intro frm t ctx log ro lg _ h
    cases h
  | succ fuel ih =>
    intro frm t ctx log ro lg hhead h k hk
    by_cases hft : frm = t
    · subst hft
      rw [checkF_base] at h
      simp only [Option.some.injEq, Res.ok.injEq, Prod.mk.injEq, Option.some.injEq] at h
      rw [← h.1] at hk
      exact hhead rfl k hk
    · obtain ⟨es, results, hes, hl, hro⟩ := checkF_succ_inv hft h
      by_cases hemp : (results.filterMap id).isEmpty = true
      · rw [if_pos hemp] at hro
        cases hro
      · rw [if_neg hemp] at hro
        injection hro with hro
        subst hro
        rw [rget_foldl_assign] at hk
        have : (lastDef (results.filterMap id) k).isSome := by
          rcases hld : lastDef (results.filterMap id) k with _ | v
          · rw [hld] at hk
            simp [oor, rget] at hk
          · simp
        obtain ⟨r, hrmem, hrw⟩ := (lastDef_isSome _ k).mp this
        have hrget : (rget r k).isSome := by
          rw [← wlast_isSome_eq]
          exact hrw
        have hsome : some r ∈ results := by
          obtain ⟨o, ho, hor⟩ := List.mem_filterMap.mp hrmem
          rcases o with _ | c
          · cases hor
          · injection hor with hor
            subst hor
            exact ho
        have hsub : ∀ e ∈ es, e ∈ g := fun e he =>
          (mem_edgesFrom (filterReach_sub hes e he)).1
        refine checkListAux_keys hsub ?_ hl (some r) hsome r rfl k hrget
        intro e he w l c l' hce hs k' hk'
        refine ih e.to' t (assign [] w :: ctx) l (c) l' ?_ hs k' hk'
        intro _ k'' hk''
        simp only [List.headD_cons] at hk''
        rw [rget_assign_nil] at hk''
        exact ⟨e, hsub e he, ctx, w, hce, hk''⟩

/-! ## Specification-side rendering of the explain traversal -/

/-- Modelled from the spec's words (section 4.3): the contribution of one
edge to the explanation sequence.  An edge whose target cannot structurally
reach `t` contributes nothing; otherwise the predicate is evaluated in a
fresh scoped context and one record is produced, followed (only when the
predicate passed and the edge does not land on the target) by the child
sequence, spliced immediately after the record. -/
def explainSpecEdge (self : String → Ctx → Option (Res (List ExplainResult)))
    (g : Graph) (fuel : Nat) (t : String) (ctx : Ctx) (e : Edge) :
    Option (Res (List ExplainResult)) :=
  match canReachF g fuel e.to' t with
  | none => none
  | some false => some (Res.ok [])
  | some true =>
    match e.check ctx with
    | Res.fault => some Res.fault
    | Res.ok (passed, w) =>
      let sc := assign [] w
      let entry : ExplainResult := ⟨e.explain, e.to', passed, sc :: ctx⟩
      if passed = true ∧ e.to' ≠ t then
        match self e.to' (sc :: ctx) with
        | none => none
        | some Res.fault => some Res.fault
        | some (Res.ok children) => some (Res.ok (entry :: children))
      else some (Res.ok [entry])

/-- Modelled from the spec's words: concatenation of the per-edge
contributions, in declaration order, with no early exit. -/
def explainSpecList (self : String → Ctx → Option (Res (List ExplainResult)))
    (g : Graph) (fuel : Nat) (t : String) (ctx : Ctx) :
    List Edge → Option (Res (List ExplainResult))
  | [] => some (Res.ok [])
  | e :: rest =>
    match explainSpecEdge self g fuel t ctx e with
    | none => none
    | some Res.fault => some Res.fault
    | some (Res.ok seg) =>
      match explainSpecList self g fuel t ctx rest with
      | none => none
      | some Res.fault => some Res.fault
      | some (Res.ok tail) => some (Res.ok (seg ++ tail))

/-- Modelled from the spec's words: the pre-order explanation sequence over
the edges leaving `frm`. -/
def explainSpecF (g : Graph) : Nat → String → String → Ctx → Option (Res (List ExplainResult))
  | 0, _, _, _ => none
  | fuel + 1, frm, t, ctx =>
    explainSpecList (fun n c => explainSpecF g fuel n t c) g fuel t ctx (edgesFrom g frm)

theorem explainList_eq_spec (self₁ self₂ : String → Ctx → Option (Res (List ExplainResult)))
    (hs : ∀ n c, self₁ n c = self₂ n c) (g : Graph) (fuel : Nat) (t : String) (ctx : Ctx) :
    ∀ es, explainListAux self₁ g fuel t ctx es = explainSpecList self₂ g fuel t ctx es := by
  intro es
  induction es with
  | nil => rfl
  | cons e rest ih =>
    rcases hcr : canReachF g fuel e.to' t with _ | b
    · simp [explainListAux, explainSpecList, explainSpecEdge, hcr]
    · cases b with
      | false =>
        simp only [explainListAux, explainSpecList, explainSpecEdge, hcr, ih]
        rcases explainSpecList self₂ g fuel t ctx rest with _ | r
        · rfl
        · rcases r with _ | tail
          · rfl
          · simp
      | true =>
        rcases hce : e.check ctx with _ | ⟨passed, w⟩
        · simp [explainListAux, explainSpecList, explainSpecEdge, hcr, hce]
        · by_cases hcond : e.to' ≠ t ∧ passed = true
          · have hcond' : passed = true ∧ e.to' ≠ t := ⟨hcond.2, hcond.1⟩
            simp only [explainListAux, explainSpecList, explainSpecEdge, hcr, hce,
              if_pos hcond, if_pos hcond', hs e.to']
            rcases self₂ e.to' (assign [] w :: ctx) with _ | r
            · rfl
            · rcases r with _ | children
              · rfl
              · rw [ih]
                rcases explainSpecList self₂ g fuel t ctx rest with _ | r2
                · rfl
                · rcases r2 with _ | tail
                  · rfl
                  · simp
          · have hcond' : ¬(passed = true ∧ e.to' ≠ t) := by
              intro hc
              exact hcond ⟨hc.2, hc.1⟩
            simp only [explainListAux, explainSpecList, explainSpecEdge, hcr, hce,
              if_neg hcond, if_neg hcond']
            rw [ih]
            rcases explainSpecList self₂ g fuel t ctx rest with _ | r2
            · rfl
            · rcases r2 with _ | tail
              · rfl
              · simp

/-- The code's `_explain` coincides with the spec's description of the
explanation traversal, for every graph, fuel, endpoints and context. -/
theorem explain_eq_spec (g : Graph) :
    ∀ fuel frm t ctx, explainF g fuel frm t ctx = explainSpecF g fuel frm t ctx := by
  intro fuel
  induction fuel with
  | zero => intro frm t ctx; rfl
  | succ fuel ih =>
    intro frm t ctx
    exact explainList_eq_spec _ _ (fun n c => ih n t c) g fuel t ctx (edgesFrom g frm)

/-! ## Example restriction accumulators -/

theorem contains_iff (l : List String) (x : String) : l.contains x = true ↔ x ∈ l :=
  List.elem_iff

/-- Model of `Set.add` on a JS Set of strings kept in insertion order. -/
def sadd (l : List String) (x : String) : List String :=
  if l.contains x then l else l ++ [x]

theorem mem_sadd (l : List String) (x y : String) : y ∈ sadd l x ↔ y ∈ l ∨ y = x := by
  unfold sadd
  by_cases h : l.contains x
  · rw [if_pos h]
    constructor
    · exact Or.inl
    · rintro (hy | rfl)
      · exact hy
      · exact (contains_iff l y).mp h
  · rw [if_neg h]
    simp

theorem mem_foldl_sadd (fs : List String) (l : List String) (y : String) :
    y ∈ fs.foldl sadd l ↔ y ∈ l ∨ y ∈ fs := by
  induction fs generalizing l with
  | nil => simp
  | cons f fs ih =>
    show y ∈ fs.foldl sadd (sadd l f) ↔ _
    rw [ih, mem_sadd]
    simp only [List.mem_cons]
    tauto

/-- The FieldsRestriction accumulator (field allow-list). -/
structure FieldsRestriction where
  fields : List String

/-- Constructor state: nothing allowed. -/
def FieldsRestriction.init : FieldsRestriction := ⟨[]⟩

def FieldsRestriction.fieldIsAllowed (s : FieldsRestriction) (f : String) : Bool :=
  s.fields.contains f

def FieldsRestriction.allow (s : FieldsRestriction) (fs : List String) : FieldsRestriction :=
  ⟨fs.foldl sadd s.fields⟩

/-- Applying a sequence of `allow` calls in order. -/
def applyAllows (calls : List (List String)) (s : FieldsRestriction) : FieldsRestriction :=
  calls.foldl FieldsRestriction.allow s

theorem fieldsRestriction_char (calls : List (List String)) (s : FieldsRestriction)
    (f : String) :
    (applyAllows calls s).fieldIsAllowed f = true
      ↔ s.fieldIsAllowed f = true ∨ ∃ fs ∈ calls, f ∈ fs := by
  induction calls generalizing s with
  | nil => simp [applyAllows]
  | cons c calls ih =>
    show (applyAllows calls (s.allow c)).fieldIsAllowed f = true ↔ _
    rw [ih]
    unfold FieldsRestriction.fieldIsAllowed FieldsRestriction.allow
    simp only [contains_iff, mem_foldl_sadd, List.mem_cons]
    constructor
    · rintro ((h | h) | ⟨fs, hfs, hf⟩)
      · exact Or.inl h
      · exact Or.inr ⟨c, Or.inl rfl, h⟩
      · exact Or.inr ⟨fs, Or.inr hfs, hf⟩
    · rintro (h | ⟨fs, rfl | hfs, hf⟩)
      · exact Or.inl (Or.inl h)
      · exact Or.inl (Or.inr hf)
      · exact Or.inr ⟨fs, hfs, hf⟩

/-- Lookup in the model of a JS Map keyed by numbers. -/
def mget : List (Nat × List String) → Nat → Option (List String)
  | [], _ => none
  | p :: m, i => if p.1 = i then some p.2 else mget m i

/-- In-place replacement of the value set stored under a key. -/
def mset (m : List (Nat × List String)) (i : Nat) (v : List String) :
    List (Nat × List String) :=
  m.map (fun p => if p.1 = i then (i, v) else p)

theorem mget_mset (m : List (Nat × List String)) (i : Nat) (v : List String) (j : Nat) :
    mget (mset m i v) j = if j = i then (mget m i).map (fun _ => v) else mget m j := by
  induction m with
  | nil => by_cases h : j = i <;> simp [mget, mset, h]
  | cons p m ih =>
    simp only [mset, List.map_cons]
    by_cases hj : j = i
    · subst hj
      by_cases hp : p.1 = j
      · simp [mget, hp]
      · simpa [mget, hp] using ih
    · by_cases hp : p.1 = i
      · have h2 : ¬(i = j) := fun h => hj h.symm
        have h3 : ¬(p.1 = j) := by rw [hp]; exact h2
        simpa [mget, hp, h2, h3, hj] using ih
      · by_cases hpj : p.1 = j
        · simp [mget, hp, hpj, hj]
        · simpa [mget, hp, hpj, hj] using ih

theorem mget_append_single (m : List (Nat × List String)) (i : Nat) (v : List String)
    (j : Nat) :
    mget (m ++ [(i, v)]) j
      = match mget m j with
        | some u => some u
        | none => if j = i then some v else none := by
  induction m with
  | nil =>
    by_cases h : j = i
    · subst h
      simp [mget]
    · have h2 : ¬(i = j) := fun hh => h hh.symm
      simp [mget, h, h2]
  | cons p m ih =>
    by_cases hp : p.1 = j
    · simp [mget, hp]
    · simpa [mget, hp] using ih

/-- The FieldsByIdRestriction accumulator (per-id field allow-list with an
"all ids" overflow set). -/
structure FieldsByIdRestriction where
  byId : List (Nat × List String)
  others : List String

/-- Constructor state: nothing allowed. -/
def FieldsByIdRestriction.init : FieldsByIdRestriction := ⟨[], []⟩

def FieldsByIdRestriction.hasIdRestriction (s : FieldsByIdRestriction) : Bool :=
  s.others.isEmpty

def FieldsByIdRestriction.fieldIsAllowed (s : FieldsByIdRestriction) (i : Nat)
    (f : String) : Bool :=
  if s.others.contains f then true
  else
    match mget s.byId i with
    | some allowedFields => allowedFields.contains f
    | none => false

def FieldsByIdRestriction.allowSome (s : FieldsByIdRestriction) (ids : List Nat)
    (fs : List String) : FieldsByIdRestriction :=
  ⟨ids.foldl (fun m i =>
      match mget m i with
      | some cur => mset m i (fs.foldl sadd cur)
      | none => m ++ [(i, fs.foldl sadd [])]) s.byId,
    s.others⟩

def FieldsByIdRestriction.allowAll (s : FieldsByIdRestriction) (fs : List String) :
    FieldsByIdRestriction :=
  ⟨s.byId, fs.foldl sadd s.others⟩

/-- The field `f` is allowed for id `i` by the per-id table `m`. -/
def inById (m : List (Nat × List String)) (i : Nat) (f : String) : Prop :=
  ∃ fs, mget m i = some fs ∧ f ∈ fs

theorem inById_mset {m : List (Nat × List String)} {j : Nat} {cur : List String}
    (fs : List String) (hm : mget m j = some cur) (i : Nat) (f : String) :
    inById (mset m j (fs.foldl sadd cur)) i f ↔ inById m i f ∨ (i = j ∧ f ∈ fs) := by
  unfold inById
  rw [mget_mset]
  by_cases hij : i = j
  · subst hij
    simp only [if_pos rfl, hm, Option.map_some]
    simp [mem_foldl_sadd]
  · simp [hij]

theorem inById_append {m : List (Nat × List String)} {j : Nat}
    (fs : List String) (hm : mget m j = none) (i : Nat) (f : String) :
    inById (m ++ [(j, fs.foldl sadd [])]) i f ↔ inById m i f ∨ (i = j ∧ f ∈ fs) := by
  unfold inById
  rw [mget_append_single]
  by_cases hij : i = j
  · subst hij
    rw [hm]
    simp [mem_foldl_sadd]
  · rcases hi : mget m i with _ | cur'
    · simp [hij]
    · simp [hij]

theorem allowSome_inById (fs : List String) :
    ∀ (ids : List Nat) (m : List (Nat × List String)) (i : Nat) (f : String),
      inById (ids.foldl (fun m i =>
          match mget m i with
          | some cur => mset m i (fs.foldl sadd cur)
          | none => m ++ [(i, fs.foldl sadd [])]) m) i f
        ↔ inById m i f ∨ (i ∈ ids ∧ f ∈ fs) := by
  intro ids
  induction ids with
  | nil => intro m i f; simp
  | cons j ids ih =>
    intro m i f
    show inById (ids.foldl _ _) i f ↔ _
    rw [ih]
    have hstep : inById (match mget m j with
        | some cur => mset m j (fs.foldl sadd cur)
        | none => m ++ [(j, fs.foldl sadd [])]) i f
        ↔ inById m i f ∨ (i = j ∧ f ∈ fs) := by
      rcases hm : mget m j with _ | cur
      · exact inById_append fs hm i f
      · exact inById_mset fs hm i f
    rw [hstep]
    simp only [List.mem_cons]
    constructor
    · rintro ((h | ⟨rfl, hf⟩) | ⟨hmem, hf⟩)
      · exact Or.inl h
      · exact Or.inr ⟨Or.inl rfl, hf⟩
      · exact Or.inr ⟨Or.inr hmem, hf⟩
    · rintro (h | ⟨rfl | hmem, hf⟩)
      · exact Or.inl (Or.inl h)
      · exact Or.inl (Or.inr ⟨rfl, hf⟩)
      · exact Or.inr ⟨hmem, hf⟩

/-- One restriction-fill mutation, as the engine dispatches them. -/
inductive FillOp where
  | allowSome : List Nat → List String → FillOp
  | allowAll : List String → FillOp

def applyOp (s : FieldsByIdRestriction) : FillOp → FieldsByIdRestriction
  | FillOp.allowSome ids fs => s.allowSome ids fs
  | FillOp.allowAll fs => s.allowAll fs

def applyOps (ops : List FillOp) (s : FieldsByIdRestriction) : FieldsByIdRestriction :=
  ops.foldl applyOp s

theorem applyOps_others_mem (ops : List FillOp) :
    ∀ (s : FieldsByIdRestriction) (f : String),
      f ∈ (applyOps ops s).others
        ↔ f ∈ s.others ∨ ∃ fs, FillOp.allowAll fs ∈ ops ∧ f ∈ fs := by
  induction ops with
  | nil => intro s f; simp [applyOps]
  | cons op ops ih =>
    intro s f
    show f ∈ (applyOps ops (applyOp s op)).others ↔ _
    rw [ih]
    rcases op with ⟨ids, fs⟩ | fs
    · simp only [applyOp, FieldsByIdRestriction.allowSome, List.mem_cons]
      constructor
      · rintro (h | ⟨fs', hmem, hf⟩)
        · exact Or.inl h
        · exact Or.inr ⟨fs', Or.inr hmem, hf⟩
      · rintro (h | ⟨fs', heq | hmem, hf⟩)
        · exact Or.inl h
        · cases heq
        · exact Or.inr ⟨fs', hmem, hf⟩
    · simp only [applyOp, FieldsByIdRestriction.allowAll, mem_foldl_sadd, List.mem_cons]
      constructor
      · rintro ((h | h) | ⟨fs', hmem, hf⟩)
        · exact Or.inl h
        · exact Or.inr ⟨fs, Or.inl rfl, h⟩
        · exact Or.inr ⟨fs', Or.inr hmem, hf⟩
      · rintro (h | ⟨fs', heq | hmem, hf⟩)
        · exact Or.inl (Or.inl h)
        · injection heq with heq
          subst heq
          exact Or.inl (Or.inr hf)
        · exact Or.inr ⟨fs', hmem, hf⟩

theorem applyOps_inById (ops : List FillOp) :
    ∀ (s : FieldsByIdRestriction) (i : Nat) (f : String),
      inById (applyOps ops s).byId i f
        ↔ inById s.byId i f
          ∨ ∃ ids fs, FillOp.allowSome ids fs ∈ ops ∧ i ∈ ids ∧ f ∈ fs := by
  induction ops with
  | nil => intro s i f; simp [applyOps]
  | cons op ops ih =>
    intro s i f
    show inById (applyOps ops (applyOp s op)).byId i f ↔ _
    rw [ih]
    rcases op with ⟨ids, fs⟩ | fs
    · simp only [applyOp]
      rw [show (FieldsByIdRestriction.allowSome s ids fs).byId
          = ids.foldl (fun m i =>
              match mget m i with
              | some cur => mset m i (fs.foldl sadd cur)
              | none => m ++ [(i, fs.foldl sadd [])]) s.byId from rfl]
      rw [allowSome_inById fs ids s.byId i f]
      simp only [List.mem_cons]
      constructor
      · rintro ((h | ⟨hmem, hf⟩) | ⟨ids', fs', hmem, hi, hf⟩)
        · exact Or.inl h
        · exact Or.inr ⟨ids, fs, Or.inl rfl, hmem, hf⟩
        · exact Or.inr ⟨ids', fs', Or.inr hmem, hi, hf⟩
      · rintro (h | ⟨ids', fs', heq | hmem, hi, hf⟩)
        · exact Or.inl (Or.inl h)
        · injection heq with h1 h2
          subst h1
          subst h2
          exact Or.inl (Or.inr ⟨hi, hf⟩)
        · exact Or.inr ⟨ids', fs', hmem, hi, hf⟩
    · simp only [applyOp, FieldsByIdRestriction.allowAll, List.mem_cons]
      constructor
      · rintro (h | ⟨ids', fs', hmem, hi, hf⟩)
        · exact Or.inl h
        · exact Or.inr ⟨ids', fs', Or.inr hmem, hi, hf⟩
      · rintro (h | ⟨ids', fs', heq | hmem, hi, hf⟩)
        · exact Or.inl h
        · cases heq
        · exact Or.inr ⟨ids', fs', hmem, hi, hf⟩

theorem fieldIsAllowed_iff (s : FieldsByIdRestriction) (i : Nat) (f : String) :
    s.fieldIsAllowed i f = true ↔ f ∈ s.others ∨ inById s.byId i f := by
  unfold FieldsByIdRestriction.fieldIsAllowed
  by_cases h : s.others.contains f = true
  · simp [h, (contains_iff _ _).mp h]
  · have hf : f ∉ s.others := fun hm => h ((contains_iff _ _).mpr hm)
    rcases hm : mget s.byId i with _ | cur
    · simp only [h, if_neg, Bool.false_eq_true]
      simp [inById, hm, hf]
    · simp only [h, if_neg]
      simp [inById, hm, hf, contains_iff]

theorem hasIdRestriction_iff (s : FieldsByIdRestriction) :
    s.hasIdRestriction = true ↔ ∀ f, f ∉ s.others := by
  unfold FieldsByIdRestriction.hasIdRestriction
  rw [List.isEmpty_iff]
  constructor
  · intro h f
    rw [h]
    exact List.not_mem_nil f
  · intro h
    exact List.eq_nil_iff_forall_not_mem.mpr h

theorem bool_eq_of_iff {a b : Bool} (h : a = true ↔ b = true) : a = b := by
  cases a <;> cases b <;> simp_all

/-! ## Remaining helper lemmas and concrete instances -/

theorem Reach_iff (g : Graph) (t frm : String) :
    Reach g t frm ↔ (frm = t ∨ ∃ e ∈ edgesFrom g frm, Reach g t e.to') := by
  constructor
  · intro h
    cases h with
    | refl => exact Or.inl rfl
    | step he hr => exact Or.inr ⟨_, he, hr⟩
  · rintro (rfl | ⟨e, he, hr⟩)
    · exact Reach.refl
    · exact Reach.step he hr

theorem filterReach_mem {g : Graph} {fuel : Nat} {t : String} :
    ∀ {es l : List Edge}, filterReach g fuel t es = some l →
      ∀ x ∈ es, canReachF g fuel x.to' t = some true → x ∈ l := by
  intro es
  induction es with
  | nil =>
    intro l _ x hx
    cases hx
  | cons e rest ih =>
    intro l h x hx hcr
    simp only [filterReach] at h
    rcases hce : canReachF g fuel e.to' t with _ | b
    · rw [hce] at h
      cases h
    · rw [hce] at h
      cases b with
      | true =>
        rcases hrest : filterReach g fuel t rest with _ | l'
        · rw [hrest] at h
          cases h
        · rw [hrest] at h
          simp only [Option.map_some', Option.some.injEq] at h
          subst h
          rcases List.mem_cons.mp hx with rfl | hm
          · exact List.mem_cons_self x l'
          · exact List.mem_cons_of_mem e (ih hrest x hm hcr)
      | false =>
        rcases List.mem_cons.mp hx with rfl | hm
        · rw [hce] at hcr
          cases hcr
        · exact ih h x hm hcr

/-- An edge with no check function: `params => Promise.resolve(true)`. -/
def alwaysTrue : CheckFn := fun _ => Res.ok (true, [])

/-- Concrete graph with a rejecting predicate on one branch and a sibling
branch that succeeds (counter-scenario of the predicate-fault policy). -/
def gFault : Graph :=
  [⟨"p", "t", "faulty edge", fun _ => Res.fault, []⟩,
   ⟨"p", "m", "to middle", alwaysTrue, []⟩,
   ⟨"m", "t", "to target", alwaysTrue, []⟩]

/-- The same graph with the faulting predicate replaced by one returning
false, which is what the spec says a fault must be equivalent to. -/
def gFaultAsFalse : Graph :=
  [⟨"p", "t", "faulty edge", fun _ => Res.ok (false, []), []⟩,
   ⟨"p", "m", "to middle", alwaysTrue, []⟩,
   ⟨"m", "t", "to target", alwaysTrue, []⟩]

/-- A two-node cyclic graph. -/
def gCyc : Graph :=
  [⟨"a", "b", "cycle out", alwaysTrue, []⟩,
   ⟨"b", "a", "cycle back", alwaysTrue, []⟩]

/-- First edge of the two-edge chain below. -/
def eChain1 : Edge := ⟨"a", "b", "first", fun _ => Res.ok (true, [("k", 1)]), []⟩

/-- Chain a -> b -> c whose two predicates write the same key with
different values (1 early in the path, 2 close to the target). -/
def gChain : Graph :=
  [eChain1, ⟨"b", "c", "second", fun _ => Res.ok (true, [("k", 2)]), []⟩]

/-- Rank function witnessing that `gChain` is acyclic. -/
def rankChain : String → Nat :=
  fun n => if n = "a" then 2 else if n = "b" then 1 else 0

/-- Two sibling branches from a, declared left then right, both reaching t
and writing one shared key and one distinct key each. -/
def gSib : Graph :=
  [⟨"a", "b", "left", fun _ => Res.ok (true, [("x", 1), ("k", 1)]), []⟩,
   ⟨"a", "c", "right", fun _ => Res.ok (true, [("y", 2), ("k", 2)]), []⟩,
   ⟨"b", "t", "left tail", alwaysTrue, []⟩,
   ⟨"c", "t", "right tail", alwaysTrue, []⟩]

/-- The last edge of the diamond graph below, carrying a restriction fill. -/
def eD5 : Edge := ⟨"d", "e", "restricted edge", alwaysTrue, ["r"]⟩

/-- Diamond a -> {b, c} -> d -> e: the edge d -> e lies on two distinct
successful branches of a single check from a to e. -/
def gDiamond : Graph :=
  [⟨"a", "b", "upper", alwaysTrue, []⟩,
   ⟨"a", "c", "lower", alwaysTrue, []⟩,
   ⟨"b", "d", "upper join", alwaysTrue, []⟩,
   ⟨"c", "d", "lower join", alwaysTrue, []⟩,
   eD5]

theorem gCyc_canReach_none : ∀ fuel,
    canReachF gCyc fuel "a" "c" = none ∧ canReachF gCyc fuel "b" "c" = none := by
  intro fuel
  induction fuel with
  | zero => exact ⟨rfl, rfl⟩
  | succ fuel ih =>
    refine ⟨?_, ?_⟩
    · show (match canReachF gCyc fuel "b" "c" with
        | none => (none : Option Bool)
        | some true => some true
        | some false => canReachList (fun n => canReachF gCyc fuel n "c") []) = none
      rw [ih.2]
    · show (match canReachF gCyc fuel "a" "c" with
        | none => (none : Option Bool)
        | some true => some true
        | some false => canReachList (fun n => canReachF gCyc fuel n "c") []) = none
      rw [ih.1]

/-! ## Claim theorems -/

/-- C1: the claim says a rejecting predicate must be treated exactly as a
predicate returning false, so that a sibling branch's success still yields
a non-null merged context.  The code has no catch around `edge.check`: the
rejection propagates through `Promise.all` and the entire `_check` call
rejects.  At the concrete graph `gFault` (edge p->t rejects, path p->m->t
succeeds), `checkF` yields a fault, while the same graph with the rejection
replaced by `false` — what the claim demands the fault be equivalent to —
yields a non-null merged context. -/
theorem C1_fault_propagates :
    checkF gFault [] 5 "p" "t" [[]] [] = some Res.fault
    ∧ checkF gFaultAsFalse [] 5 "p" "t" [[]] [] = some (Res.ok (some [], [])) := by
  decide

/-- A fuel-indexed computation diverges when no amount of fuel makes it
return: this is how the embedding renders non-termination of the unbounded
JS recursion on a fixed input. -/
def DivergesOn {α : Type} (f : Nat → Option α) : Prop := ∀ fuel, f fuel = none

theorem gCyc_check_none : ∀ fuel, checkF gCyc [] fuel "a" "c" [[]] [] = none := by
  intro fuel
  cases fuel with
  | zero => rfl
  | succ fuel =>
    have hf : filterReach gCyc fuel "c" (edgesFrom gCyc "a") = none := by
      show (match canReachF gCyc fuel "b" "c" with
        | none => (none : Option (List Edge))
        | some true =>
          (filterReach gCyc fuel "c" []).map (⟨"a", "b", "cycle out", alwaysTrue, []⟩ :: ·)
        | some false => filterReach gCyc fuel "c" []) = none
      rw [(gCyc_canReach_none fuel).2]
    exact checkF_step_div gCyc [] fuel (by decide) [[]] [] hf

/-- C2 counterexample: on the cyclic graph `gCyc` (a -> b -> a) with the
unreachable target c, both the reachability oracle and the traversal run
out of any amount of fuel: the JS originals recurse forever, so termination
is not prevented structurally on cyclic inputs. -/
theorem C2_counterexample :
    DivergesOn (fun fuel => canReachF gCyc fuel "a" "c")
    ∧ DivergesOn (fun fuel => checkF gCyc [] fuel "a" "c" [[]] []) :=
  ⟨fun fuel => (gCyc_canReach_none fuel).1, fun fuel => gCyc_check_none fuel⟩

/-- C2 (amended): `canReach` and `check` terminate on every acyclic graph —
witnessed by a rank function strictly decreasing along edges — given fuel
above the rank of the start node; on cyclic graphs they can diverge (see
the counterexample). -/
theorem C2_amended (g : Graph) (restr : List Key) (rank : String → Nat)
    (hrank : ∀ e ∈ g, rank e.to' < rank e.frm) :
    ∀ frm t ctx log fuel, rank frm < fuel →
      (canReachF g fuel frm t).isSome ∧ (checkF g restr fuel frm t ctx log).isSome := by
  intro frm t ctx log fuel hfu
  refine ⟨?_, check_term g restr rank hrank fuel frm t ctx log hfu⟩
  obtain ⟨b, hb, _⟩ := canReach_correct g rank hrank fuel frm t hfu
  simp [hb]

theorem C2_amended_witness :
    (canReachF gChain 3 "a" "c").isSome ∧ (checkF gChain [] 3 "a" "c" [[]] []).isSome := by
  apply C2_amended gChain [] rankChain
  · intro e he
    simp only [gChain, List.mem_cons, List.not_mem_nil, or_false] at he
    rcases he with rfl | rfl <;> decide
  · decide

/-- C3: on an acyclic graph whose predicates never reject, `check` resolves
(never rejects), and returns a non-null context exactly when a path to the
target exists along which every predicate evaluates to true in its scoped
context; in every other case it returns the null signal. -/
theorem C3_check_iff_okpath (g : Graph) (restr : List Key) (rank : String → Nat)
    (hrank : ∀ e ∈ g, rank e.to' < rank e.frm)
    (htotal : ∀ e ∈ g, ∀ c, e.check c ≠ Res.fault)
    (fuel : Nat) (frm t : String) (ctx : Ctx) (log : FillLog) (hfu : rank frm < fuel) :
    ∃ r log', checkF g restr fuel frm t ctx log = some (Res.ok (r, log'))
      ∧ (r.isSome ↔ OkPath g t frm ctx) :=
  check_total_correct g restr rank hrank htotal fuel frm t ctx log hfu

theorem C3_witness :
    ∃ r log', checkF gChain [] 3 "a" "c" [[]] [] = some (Res.ok (r, log'))
      ∧ (r.isSome ↔ OkPath gChain "c" "a" [[]]) := by
  apply C3_check_iff_okpath gChain [] rankChain
  · intro e he
    simp only [gChain, List.mem_cons, List.not_mem_nil, or_false] at he
    rcases he with rfl | rfl <;> decide
  · intro e he c
    simp only [gChain, List.mem_cons, List.not_mem_nil, or_false] at he
    rcases he with rfl | rfl <;> exact fun h => Res.noConfusion h
  · decide

/-- C4 counterexample: the claim says the branch context is formed by
taking the child context's fields first and letting the current edge's own
scoped fields overwrite them.  On the chain a -> b -> c where the first
edge writes k := 1 and the second k := 2, the code returns k = 2 (the child
overwrites the edge's own field), while the claim's merge rule — child
first, then the edge's scoped record [("k", 1)] on top — yields k = 1. -/
theorem C4_counterexample :
    checkF gChain [] 5 "a" "c" [[]] [] = some (Res.ok (some [("k", 2)], []))
    ∧ assign (assign [] [("k", 2)]) [("k", 1)] = [("k", 1)] := by
  decide

/-- C4 (amended): a succeeding branch's context is
`Object.assign({}, scopedParams, childrenParams)`: the current edge's own
scoped fields are taken first and the child (recursive) context's fields
overwrite them on overlapping keys, so data bound closer to the target
takes precedence over data bound earlier in the path. -/
theorem C4_branch_merge (g : Graph) (restr : List Key) (fuel : Nat) (e : Edge)
    (t : String) (ctx : Ctx) (log log' : FillLog) (w childRec : Record)
    (hc : e.check ctx = Res.ok (true, w))
    (hrec : checkF g restr fuel e.to' t (assign [] w :: ctx) log
      = some (Res.ok (some childRec, log'))) :
    checkChildrenAux (fun n c l => checkF g restr fuel n t c l) restr e ctx log
      = some (Res.ok (some (assign (assign [] (assign [] w)) childRec),
          log' ++ fillEvents e restr))
    ∧ ∀ k, rget (assign (assign [] (assign [] w)) childRec) k
        = oor (wlast childRec k) (wlast w k) := by
  constructor
  · rw [checkChildrenAux_true _ restr log hc, hrec]
  · intro k
    rw [rget_assign, rget_assign_nil, wlast_assign_nil]

theorem C4_branch_merge_witness :
    checkChildrenAux (fun n c l => checkF gChain [] 4 n "c" c l) [] eChain1 [[]] []
      = some (Res.ok (some (assign (assign [] (assign [] [("k", 1)])) [("k", 2)]), []))
    ∧ rget (assign (assign [] (assign [] [("k", 1)])) [("k", 2)]) "k"
        = oor (wlast [("k", 2)] "k") (wlast [("k", 1)] "k") :=
  ⟨(C4_branch_merge gChain [] 4 eChain1 "c" [[]] [] [] [("k", 1)] [("k", 2)]
      rfl (by decide)).1,
   (C4_branch_merge gChain [] 4 eChain1 "c" [[]] [] [] [("k", 1)] [("k", 2)]
      rfl (by decide)).2 "k"⟩

/-- C5: when the traversal node merges its successful sibling branches, the
result is the declaration-order left fold of `Object.assign` over the
positive results starting from a fresh object, so for every key defined by
more than one successful branch the value of the branch declared last wins
(`lastDef` reads the positives left to right, later ones overwriting). -/
theorem C5_sibling_merge (g : Graph) (restr : List Key) (fuel : Nat) (frm t : String)
    (ctx : Ctx) (log lg : FillLog) (es : List Edge) (results : List (Option Record))
    (hft : frm ≠ t)
    (hes : filterReach g fuel t (edgesFrom g frm) = some es)
    (hl : checkListAux (fun n c l => checkF g restr fuel n t c l) restr ctx es log
      = some (Res.ok (results, lg)))
    (hpos : (results.filterMap id).isEmpty = false) :
    checkF g restr (fuel + 1) frm t ctx log
      = some (Res.ok (some ((results.filterMap id).foldl assign []), lg))
    ∧ ∀ k, rget ((results.filterMap id).foldl assign []) k
        = lastDef (results.filterMap id) k := by
  constructor
  · rw [checkF_step g restr fuel hft ctx log hes hl]
    simp [hpos]
  · intro k
    rw [rget_foldl_assign]
    rw [show rget [] k = none from rfl]
    exact oor_none_right _

theorem C5_sibling_merge_witness :
    checkF gSib [] 4 "a" "t" [[]] []
      = some (Res.ok (some ((([some [("x", 1), ("k", 1)], some [("y", 2), ("k", 2)]]
          : List (Option Record)).filterMap id).foldl assign []), []))
    ∧ rget ((([some [("x", 1), ("k", 1)], some [("y", 2), ("k", 2)]]
          : List (Option Record)).filterMap id).foldl assign []) "k"
        = lastDef (([some [("x", 1), ("k", 1)], some [("y", 2), ("k", 2)]]
          : List (Option Record)).filterMap id) "k" := by
  have h := C5_sibling_merge gSib [] 3 "a" "t" [[]] [] []
    (edgesFrom gSib "a")
    [some [("x", 1), ("k", 1)], some [("y", 2), ("k", 2)]]
    (by decide) rfl (by decide) (by decide)
  exact ⟨h.1, h.2 "k"⟩

/-- C6 counterexample: the claim says restriction fills run exactly once
per edge.  In the diamond a -> {b, c} -> d -> e the edge d -> e lies on two
distinct successful branches of a single check from a to e, and its fill
for the caller-supplied key "r" runs twice: the fill log contains the event
("d", "e", "r") twice. -/
theorem C6_counterexample :
    checkF gDiamond ["r"] 6 "a" "e" [[]] []
      = some (Res.ok (some [], [("d", "e", "r"), ("d", "e", "r")]))
    ∧ ([("d", "e", "r"), ("d", "e", "r")] : FillLog).count ("d", "e", "r") = 2 := by
  decide

/-- C6 (amended): restriction fills run only once a branch is known to
succeed (predicate passed and recursion returned a context), exactly once
per successful branch traversal of an edge (an edge on several successful
branches fills once per branch); they cover exactly the restriction keys
present in both the caller-supplied map and the edge's restrict entries;
a branch whose predicate fails contributes nothing to the log, and a
`check` call that fails overall leaves the log untouched, so the final
accumulator state is independent of the explored non-succeeding branches. -/
theorem C6_fills (g : Graph) (restr : List Key) (fuel : Nat) (e : Edge)
    (t : String) (ctx : Ctx) (log : FillLog) :
    (∀ w, e.check ctx = Res.ok (false, w) →
      checkChildrenAux (fun n c l => checkF g restr fuel n t c l) restr e ctx log
        = some (Res.ok (none, log)))
    ∧ (∀ w childRec log', e.check ctx = Res.ok (true, w) →
        checkF g restr fuel e.to' t (assign [] w :: ctx) log
          = some (Res.ok (some childRec, log')) →
        checkChildrenAux (fun n c l => checkF g restr fuel n t c l) restr e ctx log
          = some (Res.ok (some (assign (assign [] (assign [] w)) childRec),
              log' ++ fillEvents e restr)))
    ∧ (∀ ev ∈ fillEvents e restr,
        ev.2.2 ∈ restr ∧ ev.2.2 ∈ e.restrictKeys ∧ ev.1 = e.frm ∧ ev.2.1 = e.to')
    ∧ (∀ frm lg lg2, checkF g restr fuel frm t ctx lg = some (Res.ok (none, lg2)) →
        lg2 = lg) := by
  refine ⟨?_, ?_, ?_, ?_⟩
  · intro w hc
    exact checkChildrenAux_false _ restr log hc
  · intro w childRec log' hc hrec
    rw [checkChildrenAux_true _ restr log hc, hrec]
  · intro ev hev
    simp only [fillEvents, List.mem_map, List.mem_filter] at hev
    obtain ⟨k, ⟨hk1, hk2⟩, rfl⟩ := hev
    exact ⟨hk1, (contains_iff _ _).mp hk2, rfl, rfl⟩
  · intro frm lg lg2 h
    exact checkF_fail_log g restr fuel frm t ctx lg lg2 h

theorem C6_fills_witness :
    checkChildrenAux (fun n c l => checkF gDiamond ["r"] 1 n "e" c l) ["r"] eD5 [[]] []
      = some (Res.ok (some (assign (assign [] (assign [] [])) []),
          [] ++ fillEvents eD5 ["r"]))
    ∧ ([("q", "q", "q")] : FillLog) = [("q", "q", "q")] :=
  ⟨(C6_fills gDiamond ["r"] 1 eD5 "e" [[]] []).2.1 [] [] [] rfl (by decide),
   (C6_fills gDiamond ["r"] 6 eD5 "zz" [[]] []).2.2.2 "a" [("q", "q", "q")]
     [("q", "q", "q")] (by decide)⟩

/-- C7: on an acyclic graph the reachability oracle is a pure structural
predicate — true exactly when the node is the target or some outgoing edge
leads to a node from which the target is reachable; on every structural
path to the target each edge's `canReach` test returns true, so the
pruning filter of `_check` step 2 never discards an edge lying on such a
path. -/
theorem C7_canReach (g : Graph) (rank : String → Nat)
    (hrank : ∀ e ∈ g, rank e.to' < rank e.frm) :
    (∀ fuel frm t, rank frm < fuel →
      (canReachF g fuel frm t = some true
        ↔ (frm = t ∨ ∃ e ∈ edgesFrom g frm, Reach g t e.to')))
    ∧ (∀ frm t p, IsPath g frm p t →
        ∀ e ∈ p, ∀ fuel, rank e.to' < fuel → canReachF g fuel e.to' t = some true)
    ∧ (∀ fuel frm t p es, IsPath g frm p t →
        filterReach g fuel t (edgesFrom g frm) = some es →
        ∀ e ∈ p, e ∈ edgesFrom g frm → rank e.to' < fuel → e ∈ es) := by
  have hpath : ∀ frm t p, IsPath g frm p t →
      ∀ e ∈ p, ∀ fuel, rank e.to' < fuel → canReachF g fuel e.to' t = some true := by
    intro frm t p hp e he fuel hfu
    obtain ⟨b, hb, hiff⟩ := canReach_correct g rank hrank fuel e.to' t hfu
    rw [hb, hiff.mpr (IsPath_mem_reach hp e he)]
  refine ⟨?_, hpath, ?_⟩
  · intro fuel frm t hfu
    obtain ⟨b, hb, hiff⟩ := canReach_correct g rank hrank fuel frm t hfu
    rw [hb]
    constructor
    · intro h
      injection h with h
      exact (Reach_iff g t frm).mp (hiff.mp h)
    · intro h
      rw [hiff.mpr ((Reach_iff g t frm).mpr h)]
  · intro fuel frm t p es hp hes e hep hef hfu
    exact filterReach_mem hes e hef (hpath frm t p hp e hep fuel hfu)

theorem C7_canReach_witness :
    (canReachF gChain 3 "a" "c" = some true
      ↔ ("a" = "c" ∨ ∃ e ∈ edgesFrom gChain "a", Reach gChain "c" e.to')) := by
  have h := C7_canReach gChain rankChain ?_
  · exact h.1 3 "a" "c" (by decide)
  · intro e he
    simp only [gChain, List.mem_cons, List.not_mem_nil, or_false] at he
    rcases he with rfl | rfl <;> decide

/-- C8: for a successful `check` with `from` different from `to`, the
returned object is the fresh fold of `Object.assign` over the successful
branch records, and its own keys are exactly the keys of those records;
every such key was written, as an own property of its branch scope, by a
predicate invocation that passed, so keys present only in the
caller-supplied root context never appear in the result (each merge copies
own enumerable properties only, never the prototype-inherited bindings). -/
theorem C8_result_keys (g : Graph) (restr : List Key) (fuel : Nat) (frm t : String)
    (ctx : Ctx) (log lg : FillLog) (m : Record) (hft : frm ≠ t)
    (h : checkF g restr (fuel + 1) frm t ctx log = some (Res.ok (some m, lg))) :
    (∀ k, (rget m k).isSome → WrittenT g k)
    ∧ ∃ es results, filterReach g fuel t (edgesFrom g frm) = some es
        ∧ checkListAux (fun n c l => checkF g restr fuel n t c l) restr ctx es log
            = some (Res.ok (results, lg))
        ∧ m = (results.filterMap id).foldl assign []
        ∧ (∀ k, (rget m k).isSome ↔ ∃ r ∈ results.filterMap id, (wlast r k).isSome) := by
  constructor
  · apply check_keys_written g restr (fuel + 1) frm t ctx log m lg ?_ h
    intro hf
    exact absurd hf hft
  · obtain ⟨es, results, hes, hl, hm⟩ := checkF_succ_inv hft h
    by_cases hemp : (results.filterMap id).isEmpty = true
    · rw [if_pos hemp] at hm
      cases hm
    · rw [if_neg hemp] at hm
      injection hm with hm
      refine ⟨es, results, hes, hl, hm, ?_⟩
      intro k
      rw [hm, rget_foldl_assign, show rget [] k = none from rfl, oor_none_right]
      exact lastDef_isSome (results.filterMap id) k

theorem C8_result_keys_witness : WrittenT gChain "k" :=
  (C8_result_keys gChain [] 2 "a" "c" [[("root", 7)]] [] [] [("k", 2)]
    (by decide) (by decide)).1 "k" (by decide)

/-- C9: the explanation traversal coincides, for every graph, fuel,
endpoints and context, with the spec's description: one record per edge in
declaration order among the edges whose target can structurally reach the
target, the predicate evaluated in a fresh scoped context, recursion only
when the predicate passed and the edge does not land on the target, the
child sequence spliced immediately after the record, no early exit, and no
restriction fill (the function neither receives nor produces a fill log). -/
theorem C9_explain_matches_spec (g : Graph) (fuel : Nat) (frm t : String) (ctx : Ctx) :
    explainF g fuel frm t ctx = explainSpecF g fuel frm t ctx :=
  explain_eq_spec g fuel frm t ctx

/-- C10: the two example restriction accumulators are commutative and
monotonic sinks: applying any permutation of the same sequence of mutation
calls to a fresh accumulator leaves every `fieldIsAllowed` query and
`hasIdRestriction` unchanged, and a single additional mutation never
revokes an allowed field. -/
theorem C10_accumulators_commutative :
    (∀ ops₁ ops₂ : List FillOp, ops₁.Perm ops₂ →
      (∀ i f, (applyOps ops₁ FieldsByIdRestriction.init).fieldIsAllowed i f
          = (applyOps ops₂ FieldsByIdRestriction.init).fieldIsAllowed i f)
      ∧ (applyOps ops₁ FieldsByIdRestriction.init).hasIdRestriction
          = (applyOps ops₂ FieldsByIdRestriction.init).hasIdRestriction)
    ∧ (∀ calls₁ calls₂ : List (List String), calls₁.Perm calls₂ →
        ∀ f, (applyAllows calls₁ FieldsRestriction.init).fieldIsAllowed f
          = (applyAllows calls₂ FieldsRestriction.init).fieldIsAllowed f)
    ∧ (∀ (s : FieldsByIdRestriction) (op : FillOp) (i : Nat) (f : String),
        s.fieldIsAllowed i f = true → (applyOp s op).fieldIsAllowed i f = true)
    ∧ (∀ (s : FieldsRestriction) (fs : List String) (f : String),
        s.fieldIsAllowed f = true → (s.allow fs).fieldIsAllowed f = true) := by
  have hinit_others : (FieldsByIdRestriction.init).others = [] := rfl
  have hinit_inById : ∀ i f, ¬ inById (FieldsByIdRestriction.init).byId i f := by
    rintro i f ⟨fs, hfs, _⟩
    cases hfs
  refine ⟨?_, ?_, ?_, ?_⟩
  · intro ops₁ ops₂ hperm
    constructor
    · intro i f
      apply bool_eq_of_iff
      rw [fieldIsAllowed_iff, fieldIsAllowed_iff,
        applyOps_others_mem ops₁, applyOps_others_mem ops₂,
        applyOps_inById ops₁, applyOps_inById ops₂]
      simp only [hinit_others, List.not_mem_nil, false_or]
      constructor
      · rintro (⟨fs, hm, hf⟩ | (h | ⟨ids, fs, hm, hi, hf⟩))
        · exact Or.inl ⟨fs, hperm.mem_iff.mp hm, hf⟩
        · exact absurd h (hinit_inById i f)
        · exact Or.inr (Or.inr ⟨ids, fs, hperm.mem_iff.mp hm, hi, hf⟩)
      · rintro (⟨fs, hm, hf⟩ | (h | ⟨ids, fs, hm, hi, hf⟩))
        · exact Or.inl ⟨fs, hperm.mem_iff.mpr hm, hf⟩
        · exact absurd h (hinit_inById i f)
        · exact Or.inr (Or.inr ⟨ids, fs, hperm.mem_iff.mpr hm, hi, hf⟩)
    · apply bool_eq_of_iff
      rw [hasIdRestriction_iff, hasIdRestriction_iff]
      constructor
      · intro h f hf
        rw [applyOps_others_mem ops₂] at hf
        apply h f
        rw [applyOps_others_mem ops₁]
        rcases hf with hf | ⟨fs, hm, hff⟩
        · exact Or.inl hf
        · exact Or.inr ⟨fs, hperm.mem_iff.mpr hm, hff⟩
      · intro h f hf
        rw [applyOps_others_mem ops₁] at hf
        apply h f
        rw [applyOps_others_mem ops₂]
        rcases hf with hf | ⟨fs, hm, hff⟩
        · exact Or.inl hf
        · exact Or.inr ⟨fs, hperm.mem_iff.mp hm, hff⟩
  · intro calls₁ calls₂ hperm f
    apply bool_eq_of_iff
    rw [fieldsRestriction_char, fieldsRestriction_char]
    have hinit : (FieldsRestriction.init).fieldIsAllowed f = true ↔ False := by
      unfold FieldsRestriction.init FieldsRestriction.fieldIsAllowed
      simp [contains_iff]
    rw [hinit]
    simp only [false_or]
    constructor
    · rintro ⟨fs, hm, hf⟩
      exact ⟨fs, hperm.mem_iff.mp hm, hf⟩
    · rintro ⟨fs, hm, hf⟩
      exact ⟨fs, hperm.mem_iff.mpr hm, hf⟩
  · intro s op i f h
    rw [fieldIsAllowed_iff] at h
    rw [fieldIsAllowed_iff]
    rcases op with ⟨ids, fs⟩ | fs
    · show f ∈ (s.allowSome ids fs).others ∨ inById (s.allowSome ids fs).byId i f
      rcases h with h | h
      · exact Or.inl h
      · refine Or.inr ?_
        rw [show (s.allowSome ids fs).byId = ids.foldl (fun m i =>
            match mget m i with
            | some cur => mset m i (fs.foldl sadd cur)
            | none => m ++ [(i, fs.foldl sadd [])]) s.byId from rfl]
        rw [allowSome_inById fs ids s.byId i f]
        exact Or.inl h
    · show f ∈ (s.allowAll fs).others ∨ inById (s.allowAll fs).byId i f
      rcases h with h | h
      · refine Or.inl ?_
        rw [show (s.allowAll fs).others = fs.foldl sadd s.others from rfl,
          mem_foldl_sadd]
        exact Or.inl h
      · exact Or.inr h
  · intro s fs f h
    unfold FieldsRestriction.fieldIsAllowed at h
    unfold FieldsRestriction.allow FieldsRestriction.fieldIsAllowed
    rw [contains_iff] at h
    rw [contains_iff, mem_foldl_sadd]
    exact Or.inl h

theorem C10_accumulators_commutative_witness :
    ((applyOps [FillOp.allowSome [1] ["a"], FillOp.allowAll ["b"]]
        FieldsByIdRestriction.init).fieldIsAllowed 1 "a"
      = (applyOps [FillOp.allowAll ["b"], FillOp.allowSome [1] ["a"]]
        FieldsByIdRestriction.init).fieldIsAllowed 1 "a")
    ∧ ((applyOps [FillOp.allowSome [1] ["a"], FillOp.allowAll ["b"]]
        FieldsByIdRestriction.init).hasIdRestriction
      = (applyOps [FillOp.allowAll ["b"], FillOp.allowSome [1] ["a"]]
        FieldsByIdRestriction.init).hasIdRestriction) :=
  ⟨((C10_accumulators_commutative.1
      [FillOp.allowSome [1] ["a"], FillOp.allowAll ["b"]]
      [FillOp.allowAll ["b"], FillOp.allowSome [1] ["a"]]
      (List.Perm.swap (FillOp.allowAll ["b"]) (FillOp.allowSome [1] ["a"]) [])).1 1 "a"),
   ((C10_accumulators_commutative.1
      [FillOp.allowSome [1] ["a"], FillOp.allowAll ["b"]]
      [FillOp.allowAll ["b"], FillOp.allowSome [1] ["a"]]
      (List.Perm.swap (FillOp.allowAll ["b"]) (FillOp.allowSome [1] ["a"]) [])).2)⟩
